import Mathlib

/-!
# Lumina-Translate: verification of the segmentation/serialization model
# and the batch translation orchestration

Shallow embedding of the repository's core logic:

* `services/parser` (`src/unnamed/part_000`): format parsers (`parseSRT`,
  `parseLRC`, `parsePlainText`) and serializers (`stringifySRT`,
  `stringifyLRC`), modelled at the level of `List Char` with the JavaScript
  string primitives (`split` on the blank-line regex, `trim`, `\r\n`
  normalization, regex matching for the SRT/LRC timestamp patterns)
  reproduced faithfully.

* `services/geminiService.ts`: `translateBatch` with its retry/backoff loop,
  the CUSTOM-provider configuration check, and the response validation steps.
  The provider round trip (HTTP transport and `JSON.parse` of the cleaned
  body) is an oracle `Nat → Except String JsValue` giving, per attempt,
  either the thrown transport/parse error or the parsed JSON value.

* `App.startTranslation` (`src/types.ts` lines 212-267): the driver loop with
  chunking, context propagation, progress and the partial-failure path.  The
  `translateBatch` call is an oracle `Nat → Except String (List String)`
  indexed by chunk number.  The model distinguishes the stale closure value
  `blocks0` captured by the handler from the evolving React state, matching
  the semantics of `useState` with functional updaters.
-/

set_option maxHeartbeats 1000000

/-! ## JavaScript character classes and string primitives -/

/-- The JavaScript `\s` class (which in JS coincides with the set trimmed by
`String.prototype.trim`): space, tab, LF, VT, FF, CR, NBSP, and the Unicode
space separators, line separators and BOM. -/
def isJsWs (c : Char) : Bool :=
  decide (c.toNat = 32) || decide (c.toNat = 9) || decide (c.toNat = 10) ||
  decide (c.toNat = 11) || decide (c.toNat = 12) || decide (c.toNat = 13) ||
  decide (c.toNat = 160) || decide (c.toNat = 5760) ||
  (decide (8192 ≤ c.toNat) && decide (c.toNat ≤ 8202)) ||
  decide (c.toNat = 8232) || decide (c.toNat = 8233) ||
  decide (c.toNat = 8239) || decide (c.toNat = 8287) ||
  decide (c.toNat = 12288) || decide (c.toNat = 65279)

/-- The JavaScript `\d` class. -/
def isDigitCh (c : Char) : Bool :=
  decide (48 ≤ c.toNat) && decide (c.toNat ≤ 57)

/-- `String.prototype.trim`: strip leading and trailing whitespace. -/
def jsTrim (l : List Char) : List Char :=
  (((l.dropWhile isJsWs).reverse).dropWhile isJsWs).reverse

/-- `Array.prototype.join(sep)` on lists of char lists. -/
def joinWith (sep : List Char) : List (List Char) → List Char
  | [] => []
  | [x] => x
  | x :: y :: rest => x ++ sep ++ joinWith sep (y :: rest)

/-- `String.prototype.split('\n')` (exact one-char separator, keeps empty
parts, `"" ↦ [""]`). -/
def splitNl : List Char → List (List Char)
  | [] => [[]]
  | c :: rest =>
    if c = '\n' then [] :: splitNl rest
    else
      match splitNl rest with
      | [] => [[c]]
      | l :: ls => (c :: l) :: ls

/-- `String.prototype.split(/\r?\n/)`. -/
def splitLinesCR : List Char → List (List Char)
  | [] => [[]]
  | '\r' :: '\n' :: rest => [] :: splitLinesCR rest
  | '\n' :: rest => [] :: splitLinesCR rest
  | c :: rest =>
    match splitLinesCR rest with
    | [] => [[c]]
    | l :: ls => (c :: l) :: ls

/-- `String.prototype.replace(/\r\n/g, '\n')`: one left-to-right pass over
non-overlapping occurrences; the replacement text is not rescanned (so
`"\r\r\n"` becomes `"\r\n"`). -/
def replaceCrlf : List Char → List Char
  | '\r' :: '\n' :: rest => '\n' :: replaceCrlf rest
  | c :: rest => c :: replaceCrlf rest
  | [] => []

/-- Index of the last `'\n'` inside a list, if any. -/
def lastNlIdx (l : List Char) : Option Nat :=
  match l.reverse.findIdx? (fun c => c = '\n') with
  | some k => some (l.length - 1 - k)
  | none => none

/-- Length of the match of the regex `\n\s*\n` anchored at the head of `cs`
(0 when there is no match there).  The greedy `\s*` with backtracking picks
the last `'\n'` inside the whitespace run following the leading `'\n'`. -/
def sepLen (cs : List Char) : Nat :=
  match cs with
  | [] => 0
  | c :: rest =>
    if c = '\n' then
      match lastNlIdx (rest.takeWhile isJsWs) with
      | some j => j + 2
      | none => 0
    else 0

/-- Fuelled scanner for `String.prototype.split(/\n\s*\n/)`: leftmost
non-overlapping matches of the separator regex cut the string.  Each step
consumes at least one character, so any fuel of at least the list length
gives the same result (`splitBlankFuel_irrel`); the fuel only makes the
recursion structural. -/
def splitBlankFuel : Nat → List Char → List Char → List (List Char)
  | _, [], acc => [acc.reverse]
  | 0, _ :: _, acc => [acc.reverse]
  | fuel + 1, c :: rest, acc =>
    if sepLen (c :: rest) = 0 then splitBlankFuel fuel rest (c :: acc)
    else acc.reverse :: splitBlankFuel fuel ((c :: rest).drop (sepLen (c :: rest))) []

/-- The scanner at its canonical fuel. -/
def splitBlankGo (cs acc : List Char) : List (List Char) :=
  splitBlankFuel cs.length cs acc

/-- `String.prototype.split(/\n\s*\n/)`. -/
def splitBlank (cs : List Char) : List (List Char) :=
  splitBlankGo cs []

/-! ## Data model (`src/types.ts`) -/

inductive ContentType where
  | PLAIN_TEXT | SUBTITLE_SRT | LYRICS_LRC | MARKDOWN
deriving DecidableEq

inductive OutputFormat where
  | ONLY_TRANSLATION | DUAL_TRANS_SRC | DUAL_SRC_TRANS
deriving DecidableEq

inductive LLMProvider where
  | GEMINI | CUSTOM
deriving DecidableEq

structure CustomLLMConfig where
  baseUrl : String
  apiKey : String
  modelName : String
deriving DecidableEq

structure SubtitleBlock where
  id : Nat
  startTime : String
  endTime : String
  originalText : String
  translatedText : String
  isTranslating : Bool
deriving DecidableEq

def dummyBlock : SubtitleBlock :=
  { id := 0, startTime := "", endTime := "", originalText := "",
    translatedText := "", isTranslating := false }

/-- `String.prototype.includes(pat)`. -/
def containsSub (pat : List Char) (l : List Char) : Bool :=
  match l with
  | [] => pat.isEmpty
  | _ :: rest => pat.isPrefixOf l || containsSub pat rest

/-- The decimal digits of a natural number, as JavaScript renders an index. -/
def digitCh : Nat → Char
  | 0 => '0' | 1 => '1' | 2 => '2' | 3 => '3' | 4 => '4'
  | 5 => '5' | 6 => '6' | 7 => '7' | 8 => '8' | _ => '9'

/-- Fuelled digit expansion; any fuel above `n` is enough. -/
def natCharsFuel : Nat → Nat → List Char
  | 0, _ => []
  | fuel + 1, n =>
    if n < 10 then [digitCh n]
    else natCharsFuel fuel (n / 10) ++ [digitCh (n % 10)]

/-- Decimal representation of a natural number (template-literal `${n}`). -/
def natChars (n : Nat) : List Char :=
  natCharsFuel (n + 1) n

/-- JavaScript `a || b` on strings (empty string is falsy). -/
def jsOr (a b : String) : String := if a = "" then b else a

/-! ## SRT / LRC timestamp regex matching -/

/-- Anchored match of `\d{2}:\d{2}:\d{2},\d{3}` at the head of the list,
returning the matched 12 characters and the remainder. -/
def takeTimestamp : List Char → Option (List Char × List Char)
  | a :: b :: ':' :: c :: d :: ':' :: e :: f :: ',' :: g :: h :: i :: rest =>
    if isDigitCh a && isDigitCh b && isDigitCh c && isDigitCh d &&
       isDigitCh e && isDigitCh f && isDigitCh g && isDigitCh h && isDigitCh i then
      some ([a, b, ':', c, d, ':', e, f, ',', g, h, i], rest)
    else none
  | _ => none

/-- Anchored match of the SRT pattern
`(\d{2}:\d{2}:\d{2},\d{3})\s*-->\s*(\d{2}:\d{2}:\d{2},\d{3})`, returning the
two captured groups.  Since `'-'` and digits are not whitespace, the greedy
`\s*` with backtracking is equivalent to dropping the maximal whitespace
run. -/
def tryTimePair (cs : List Char) : Option (List Char × List Char) :=
  match takeTimestamp cs with
  | none => none
  | some (t1, rest1) =>
    match rest1.dropWhile isJsWs with
    | '-' :: '-' :: '>' :: rest2 =>
      match takeTimestamp (rest2.dropWhile isJsWs) with
      | some (t2, _) => some (t1, t2)
      | none => none
    | _ => none

/-- `String.prototype.match` with the SRT time pattern: leftmost match. -/
def matchTimePair : List Char → Option (List Char × List Char)
  | [] => none
  | c :: rest =>
    match tryTimePair (c :: rest) with
    | some r => some r
    | none => matchTimePair rest

/-- The characters of the arrow token `-->`. -/
def arrowChars : List Char := ['-', '-', '>']

/-- Anchored match of the LRC line pattern
`^\[(\d{2}:\d{2}(?:\.\d{2,3})?)\](.*)`: the captured timestamp (verbatim)
and the rest of the line.  The greedy optional fraction tries 3 digits, then
2, then none, each followed by the closing bracket. -/
def tryLrcTime : List Char → Option (List Char × List Char)
  | '[' :: a :: b :: ':' :: c :: d :: rest =>
    if isDigitCh a && isDigitCh b && isDigitCh c && isDigitCh d then
      match rest with
      | ']' :: tail => some ([a, b, ':', c, d], tail)
      | '.' :: e :: f :: rest2 =>
        if isDigitCh e && isDigitCh f then
          match rest2 with
          | g :: ']' :: tail =>
            if isDigitCh g then some ([a, b, ':', c, d, '.', e, f, g], tail)
            else none
          | ']' :: tail => some ([a, b, ':', c, d, '.', e, f], tail)
          | _ => none
        else none
      | _ => none
    else none
  | _ => none

/-! ## Format Engine (`services/parser`, `src/unnamed/part_000`) -/

/-- Per-block processing loop of `parseSRT`, carrying the `idCounter` that is
incremented only when a block is pushed. -/
def parseSRTgo : List (List Char) → Nat → List SubtitleBlock
  | [], _ => []
  | block :: rest, idCounter =>
    if jsTrim block = [] then parseSRTgo rest idCounter
    else
      let lines := splitNl block
      if lines.length < 2 then parseSRTgo rest idCounter
      else
        match lines.findIdx? (fun l => containsSub arrowChars l) with
        | none => parseSRTgo rest idCounter
        | some arrowIndex =>
          match matchTimePair (lines.getD arrowIndex []) with
          | none => parseSRTgo rest idCounter
          | some (t1, t2) =>
            let textLines := lines.drop (arrowIndex + 1)
            let originalText := jsTrim (joinWith ['\n'] textLines)
            if originalText = [] then parseSRTgo rest idCounter
            else
              { id := idCounter, startTime := String.mk t1, endTime := String.mk t2,
                originalText := String.mk originalText, translatedText := "",
                isTranslating := false } :: parseSRTgo rest (idCounter + 1)

/-- `parseSRT`: normalize `\r\n`, split into blocks on `\n\s*\n`, keep blocks
with a well-formed arrow-timestamp line and non-empty trailing text. -/
def parseSRT (content : String) : List SubtitleBlock :=
  parseSRTgo (splitBlank (replaceCrlf content.data)) 1

/-- Per-line loop of `parseLRC`. -/
def parseLRCgo : List (List Char) → Nat → List SubtitleBlock
  | [], _ => []
  | line :: rest, id =>
    match tryLrcTime line with
    | none => parseLRCgo rest id
    | some (startTime, tail) =>
      let text := jsTrim tail
      if text = [] then parseLRCgo rest id
      else
        { id := id, startTime := String.mk startTime, endTime := "",
          originalText := String.mk text, translatedText := "",
          isTranslating := false } :: parseLRCgo rest (id + 1)

/-- `parseLRC`: split on `/\r?\n/`, keep timestamped lines with non-empty
trimmed text. -/
def parseLRC (content : String) : List SubtitleBlock :=
  parseLRCgo (splitLinesCR content.data) 1

/-- `parsePlainText`: split on blank lines, assign ids by paragraph position
(before filtering), keep segments whose trimmed text is non-empty. -/
def parsePlainText (content : String) : List SubtitleBlock :=
  (((splitBlank content.data).enum.map (fun pi =>
    { id := pi.1 + 1, startTime := "00:00:00,000", endTime := "00:00:00,000",
      originalText := String.mk (jsTrim pi.2), translatedText := "",
      isTranslating := false })).filter (fun b => 0 < b.originalText.length))

/-- The text block emitted for one segment, per output mode (shared by the
SRT and plain-text serializers). -/
def srtBlockText (b : SubtitleBlock) (format : OutputFormat) : List Char :=
  let original := b.originalText.data
  let translated := if b.translatedText = "" then original else b.translatedText.data
  match format with
  | OutputFormat.ONLY_TRANSLATION => translated
  | OutputFormat.DUAL_TRANS_SRC => translated ++ '\n' :: original
  | OutputFormat.DUAL_SRC_TRANS => original ++ '\n' :: translated

/-- `stringifySRT`: per segment `${index+1}\n${start} --> ${end}\n${text}\n`,
joined with `'\n'`. -/
def stringifySRT (blocks : List SubtitleBlock) (format : OutputFormat) : String :=
  String.mk (joinWith ['\n'] (blocks.enum.map (fun ib =>
    natChars (ib.1 + 1) ++ '\n' ::
    (ib.2.startTime.data ++ ' ' :: '-' :: '-' :: '>' :: ' ' :: ib.2.endTime.data) ++
    '\n' :: srtBlockText ib.2 format ++ ['\n'])))

/-- `stringifyLRC`: per segment one or two `[startTime]`-tagged lines, joined
with `'\n'`; dual modes repeat the time tag, once per text field. -/
def stringifyLRC (blocks : List SubtitleBlock) (format : OutputFormat) : String :=
  String.mk (joinWith ['\n'] (blocks.map (fun b =>
    let timeTag := '[' :: b.startTime.data ++ [']']
    let original := b.originalText.data
    let translated := if b.translatedText = "" then original else b.translatedText.data
    match format with
    | OutputFormat.ONLY_TRANSLATION => timeTag ++ translated
    | OutputFormat.DUAL_TRANS_SRC => timeTag ++ translated ++ '\n' :: timeTag ++ original
    | OutputFormat.DUAL_SRC_TRANS => timeTag ++ original ++ '\n' :: timeTag ++ translated)))

/-! ## Batch Translator (`src/services/geminiService.ts`)

The provider round trip of one attempt (HTTP call / SDK call, code-fence
stripping and `JSON.parse`) is abstracted as an oracle
`Nat → Except String JsValue`: for each attempt index it yields either the
message of the error thrown up to and including JSON parsing, or the parsed
JSON value.  Everything after that point (the `translations` validation, the
single-input merge heuristic, the length check, the retry loop with
exponential backoff and the configuration check for the CUSTOM provider) is
modelled directly from the source. -/

/-- Parsed JSON values (numbers restricted to integers). -/
inductive JsValue where
  | null
  | bool (b : Bool)
  | num (n : Int)
  | str (s : String)
  | arr (elems : List JsValue)
  | obj (fields : List (String × JsValue))

/-- JavaScript property lookup on a parsed JSON value: only objects have own
properties; everything else yields `undefined` (`none`). -/
def getField : JsValue → String → Option JsValue
  | JsValue.obj fields, name => (fields.find? (fun kv => kv.1 == name)).map (fun kv => kv.2)
  | _, _ => none

/-- JavaScript falsiness of a JSON value. -/
def jsFalsy : JsValue → Bool
  | JsValue.null => true
  | JsValue.bool b => !b
  | JsValue.num n => n == 0
  | JsValue.str s => s == ""
  | JsValue.arr _ => false
  | JsValue.obj _ => false

/-- Decimal representation of an integer. -/
def intChars (n : Int) : List Char :=
  if n < 0 then '-' :: natChars n.natAbs else natChars n.toNat

mutual
/-- How `Array.prototype.join` renders one element (`null`/`undefined`
render as the empty string; nested arrays render as their comma-join). -/
def jsJoinElem : JsValue → List Char
  | JsValue.null => []
  | JsValue.bool b => if b then "true".data else "false".data
  | JsValue.num n => intChars n
  | JsValue.str s => s.data
  | JsValue.arr elems => joinWith [','] (jsJoinElems elems)
  | JsValue.obj _ => "[object Object]".data

def jsJoinElems : List JsValue → List (List Char)
  | [] => []
  | v :: vs => jsJoinElem v :: jsJoinElems vs
end

/-- `parsed.translations.join('\n')`. -/
def joinTranslations (elems : List JsValue) : List Char :=
  joinWith ['\n'] (jsJoinElems elems)

/-- The length-mismatch error message. -/
def mismatchMsg (expected got : Nat) : String :=
  "Length mismatch: Expected " ++ String.mk (natChars expected) ++
  ", got " ++ String.mk (natChars got)

/-- Validation of the parsed provider response (geminiService.ts lines
114-137): require a truthy `translations` array, merge an over-split reply to
a single input, and otherwise enforce the exact length. -/
def validateTranslations (texts : List String) (parsed : JsValue) : Except String (List JsValue) :=
  match parsed with
  | JsValue.null => Except.error "TypeError: Cannot read properties of null"
  | _ =>
    match getField parsed "translations" with
    | none => Except.error "Invalid JSON structure: missing 'translations' array"
    | some t =>
      if jsFalsy t then Except.error "Invalid JSON structure: missing 'translations' array"
      else
        match t with
        | JsValue.arr elems =>
          if texts.length == 1 && 1 < elems.length then
            Except.ok [JsValue.str (String.mk (joinTranslations elems))]
          else if elems.length ≠ texts.length then
            Except.error (mismatchMsg texts.length elems.length)
          else Except.ok elems
        | _ => Except.error "Invalid JSON structure: missing 'translations' array"

/-- Truthiness check of `!customConfig?.baseUrl || !customConfig?.apiKey`:
the config object is missing, or one of the two strings is empty. -/
def badCustomConfig : Option CustomLLMConfig → Bool
  | none => true
  | some c => c.baseUrl == "" || c.apiKey == ""

/-- One attempt of the `translateBatch` body (the `try` block): for the
CUSTOM provider, the configuration check runs first and throws inside the
loop; then the provider/parse oracle is consulted and its value validated. -/
def attemptOnce (provider : LLMProvider) (customConfig : Option CustomLLMConfig)
    (texts : List String) (oracle : Nat → Except String JsValue) (attempt : Nat) :
    Except String (List JsValue) :=
  match provider with
  | LLMProvider.GEMINI => (oracle attempt).bind (validateTranslations texts)
  | LLMProvider.CUSTOM =>
    if badCustomConfig customConfig then
      Except.error "Missing Custom Provider Configuration"
    else (oracle attempt).bind (validateTranslations texts)

/-- Outcome of a `translateBatch` call, with the attempt count and the
backoff delays (in ms) that were awaited between attempts. -/
structure BatchRun where
  result : Except String (List JsValue)
  attempts : Nat
  waits : List Nat

/-- `maxRetries` (geminiService.ts line 44). -/
def maxRetries : Nat := 3

/-- The `while (attempt < maxRetries)` loop: on success return the
translations; on failure increment `attempt`, rethrow the error of the last
attempt once `attempt === maxRetries`, and otherwise wait
`1000 * 2^(attempt-1)` ms and try again.  `fuel` counts the remaining loop
iterations; the fuel-exhausted branch mirrors the unreachable trailing
`throw` (line 151). -/
def translateLoop (provider : LLMProvider) (customConfig : Option CustomLLMConfig)
    (texts : List String) (oracle : Nat → Except String JsValue) :
    Nat → Nat → List Nat → BatchRun
  | 0, attempt, waits =>
    { result := Except.error "Unexpected error in translation loop",
      attempts := attempt, waits := waits }
  | fuel + 1, attempt, waits =>
    match attemptOnce provider customConfig texts oracle attempt with
    | Except.ok r => { result := Except.ok r, attempts := attempt + 1, waits := waits }
    | Except.error e =>
      if attempt + 1 = maxRetries then
        { result := Except.error e, attempts := attempt + 1, waits := waits }
      else
        translateLoop provider customConfig texts oracle fuel (attempt + 1)
          (waits ++ [1000 * 2 ^ attempt])

/-- `translateBatch` (geminiService.ts lines 22-152). -/
def translateBatch (texts : List String) (provider : LLMProvider)
    (customConfig : Option CustomLLMConfig) (oracle : Nat → Except String JsValue) :
    BatchRun :=
  translateLoop provider customConfig texts oracle maxRetries 0 []

/-! ## Driver (`App` component, `src/types.ts` lines 71-267)

`startTranslation` is an async closure over the render-time value of the
`blocks` state.  The model therefore distinguishes `blocks0` — the list
captured by the closure, read by `blocks.slice`, `blocks.length` and
`blocks[startIdx - 1]` — from the live component state, which only the
`setBlocks(prev => ...)` functional updaters see.  The outcome of the
`translateBatch` call for chunk `i` is an oracle indexed by `i`. -/

/-- One recorded dispatch to `translateBatch`. -/
structure BatchCall where
  texts : List String
  context : Option String
deriving DecidableEq

/-- Component state touched by `startTranslation`, plus the call trace and
the surfaced error message of the `alert`. -/
structure DriverState where
  blocks : List SubtitleBlock
  isProcessing : Bool
  progress : Nat
  calls : List BatchCall
  failure : Option String
deriving DecidableEq

/-- `setBlocks(prev => prev.map((b, idx) => idx >= s && idx < e ?
{...b, isTranslating: true} : b))`. -/
def markTranslating (blocks : List SubtitleBlock) (s e : Nat) : List SubtitleBlock :=
  blocks.enum.map (fun ib =>
    if s ≤ ib.1 ∧ ib.1 < e then { ib.2 with isTranslating := true } else ib.2)

/-- Success write-back of one chunk (types.ts lines 243-252):
`translatedText: translatedTexts[idx - startIdx] || b.originalText`, and the
in-flight flag cleared, for indices inside the chunk. -/
def applyChunkResult (blocks : List SubtitleBlock) (s e : Nat)
    (translatedTexts : List String) : List SubtitleBlock :=
  blocks.enum.map (fun ib =>
    if s ≤ ib.1 ∧ ib.1 < e then
      { ib.2 with
        translatedText := jsOr (translatedTexts.getD (ib.1 - s) "") ib.2.originalText,
        isTranslating := false }
    else ib.2)

/-- Error path write-back: `prev.map(b => ({...b, isTranslating: false}))`. -/
def clearTranslating (blocks : List SubtitleBlock) : List SubtitleBlock :=
  blocks.map (fun b => { b with isTranslating := false })

/-- `Math.ceil(blocks.length / BATCH_SIZE)` with `BATCH_SIZE = 10`. -/
def totalBatches (blocks0 : List SubtitleBlock) : Nat :=
  (blocks0.length + 9) / 10

/-- `Math.round(((i + 1) / totalBatches) * 100)` (round half away from zero
on positive reals equals `floor(x + 1/2)`). -/
def jsRound100 (done total : Nat) : Nat :=
  (200 * done + total) / (2 * total)

/-- The chunk loop of `startTranslation`.  `i` is the chunk index, `fuel`
the number of remaining iterations (`totalBatches - i`).  The batch slice and
the context both read the stale closure list `blocks0`; the state updates go
through the live state in `st`. -/
def driveLoop (blocks0 : List SubtitleBlock) (tb : Nat → Except String (List String)) :
    Nat → Nat → DriverState → DriverState
  | _, 0, st => { st with isProcessing := false }
  | i, fuel + 1, st =>
    let s := i * 10
    let e := min (s + 10) blocks0.length
    let batch := (blocks0.drop s).take (e - s)
    let sourceTexts := batch.map (fun b => b.originalText)
    let context : Option String :=
      if 0 < i then
        some ("Previous sentence: " ++ (blocks0.getD (s - 1) dummyBlock).translatedText)
      else none
    let st1 : DriverState :=
      { st with blocks := markTranslating st.blocks s e,
                calls := st.calls ++ [{ texts := sourceTexts, context := context }] }
    match tb i with
    | Except.ok translatedTexts =>
      driveLoop blocks0 tb (i + 1) fuel
        { st1 with blocks := applyChunkResult st1.blocks s e translatedTexts,
                   progress := jsRound100 (i + 1) (totalBatches blocks0) }
    | Except.error msg =>
      { st1 with isProcessing := false,
                 blocks := clearTranslating st1.blocks,
                 failure := some (jsOr msg "未知错误") }

/-- `startTranslation` (types.ts lines 212-267). -/
def startTranslation (blocks0 : List SubtitleBlock)
    (tb : Nat → Except String (List String)) : DriverState :=
  if blocks0.length = 0 then
    { blocks := blocks0, isProcessing := false, progress := 0, calls := [], failure := none }
  else
    driveLoop blocks0 tb 0 (totalBatches blocks0)
      { blocks := blocks0, isProcessing := true, progress := 0, calls := [], failure := none }

/-- The parser selected by the current content type (types.ts lines
118-124). -/
def parseByType (ct : ContentType) (rawText : String) : List SubtitleBlock :=
  match ct with
  | ContentType.SUBTITLE_SRT => parseSRT rawText
  | ContentType.LYRICS_LRC => parseLRC rawText
  | _ => parsePlainText rawText

/-- The positional copy `{...b, translatedText: currentTranslations[i]}`. -/
def carryTranslation (bt : SubtitleBlock × String) : SubtitleBlock :=
  { bt.1 with translatedText := bt.2 }

/-- The reparse effect that runs when the content type changes (types.ts
lines 112-134): reparse the raw text with the new type and carry the old
translations over positionally exactly when the lengths agree. -/
def reparseOnTypeChange (ct : ContentType) (rawText : String)
    (blocks : List SubtitleBlock) : List SubtitleBlock :=
  if rawText = "" then blocks
  else
    let currentTranslations := blocks.map (fun b => b.translatedText)
    let newBlocks := parseByType ct rawText
    if newBlocks.length = currentTranslations.length then
      (newBlocks.zip currentTranslations).map carryTranslation
    else newBlocks

/-! ## Lemmas: the blank-line scanner -/

/-! ## Fixtures and derived definitions used by the proofs -/

/-- A constant failing oracle for witnesses. -/
def failOracle : Nat → Except String JsValue := fun _ => Except.error "E"

/-- An oracle that would succeed, were it ever consulted and the
configuration valid. -/
def okOracle : Nat → Except String JsValue := fun _ =>
  Except.ok (JsValue.obj [("translations", JsValue.arr [JsValue.str "bonjour"])])

/-- A configuration with an empty API key. -/
def emptyKeyConfig : CustomLLMConfig :=
  { baseUrl := "https://api.example.com/v1", apiKey := "", modelName := "gpt-4o-mini" }

/-- A lyric segment whose original text spans two lines. -/
def multilineLrcBlock : SubtitleBlock :=
  { id := 1, startTime := "00:10.00", endTime := "", originalText := "a\nb",
    translatedText := "c", isTranslating := false }

/-- The two tagged lines a segment contributes in a dual output mode. -/
def lrcDualLines (fmt : OutputFormat) (b : SubtitleBlock) : List (List Char) :=
  let timeTag := '[' :: b.startTime.data ++ [']']
  let original := b.originalText.data
  let translated := if b.translatedText = "" then original else b.translatedText.data
  match fmt with
  | OutputFormat.DUAL_SRC_TRANS => [timeTag ++ original, timeTag ++ translated]
  | _ => [timeTag ++ translated, timeTag ++ original]

/-- A two-segment list with translations present. -/
def twoBlocksT : List SubtitleBlock :=
  [{ id := 1, startTime := "00:00:00,000", endTime := "00:00:00,000",
     originalText := "a", translatedText := "TA", isTranslating := false },
   { id := 2, startTime := "00:00:00,000", endTime := "00:00:00,000",
     originalText := "b", translatedText := "TB", isTranslating := false }]

/-- An in-flight segment whose original text is `"hello"`. -/
def helloBlock : SubtitleBlock :=
  { id := 1, startTime := "", endTime := "", originalText := "hello",
    translatedText := "", isTranslating := true }

/-- Twelve freshly parsed segments (empty translations). -/
def blocksTwelve : List SubtitleBlock :=
  (List.range 12).map (fun k =>
    { id := k + 1, startTime := "00:00:00,000", endTime := "00:00:00,000",
      originalText := String.mk ('s' :: natChars k), translatedText := "",
      isTranslating := false })

/-- A chunk oracle that translates every segment to `"X"`. -/
def tbAllX : Nat → Except String (List String) := fun _ =>
  Except.ok (List.replicate 10 "X")

/-- The chunk oracle that succeeds on chunk 0 and fails on chunk 1. -/
def tbFailAt1 : Nat → Except String (List String) := fun j =>
  if j = 0 then Except.ok (List.replicate 10 "X") else Except.error "boom"

/-- An SRT input containing `\r\r\n` inside the cue text. -/
def crInput : String := "1\n00:00:01,000 --> 00:00:02,000\na\r\r\nb"

/-- No blank-line separator match inside the list: after every `'\n'`, the
following whitespace run (within the list) contains no further `'\n'`. -/
def nbOk : List Char → Bool
  | [] => true
  | c :: rest =>
    (if c = '\n' then !(rest.takeWhile isJsWs).any (fun x => x = '\n') else true) &&
    nbOk rest

/-- `nbOk` relative to a continuation `ctx` appended after the list. -/
def nbCtx (ctx : List Char) : List Char → Bool
  | [] => true
  | c :: rest =>
    (if c = '\n' then !((rest ++ ctx).takeWhile isJsWs).any (fun x => x = '\n') else true) &&
    nbCtx ctx rest

def headNonWs : List Char → Bool
  | [] => false
  | c :: _ => !isJsWs c

def lastNonWs (l : List Char) : Bool := headNonWs l.reverse

/-- Trimmed, non-empty, and free of blank-line separators. -/
def goodText (l : List Char) : Bool := headNonWs l && lastNonWs l && nbOk l

/-- Exact shape `\d{2}:\d{2}:\d{2},\d{3}`. -/
def isTsShape : List Char → Bool
  | [a, b, ':', c, d, ':', e, f, ',', g, h, i] =>
    isDigitCh a && isDigitCh b && isDigitCh c && isDigitCh d &&
    isDigitCh e && isDigitCh f && isDigitCh g && isDigitCh h && isDigitCh i
  | _ => false

/-- The invariant carried by every block `parseSRT` produces from a
carriage-return-free input. -/
def goodBlock (b : SubtitleBlock) : Prop :=
  isTsShape b.startTime.data = true ∧ isTsShape b.endTime.data = true ∧
  goodText b.originalText.data = true ∧ '\r' ∉ b.originalText.data ∧
  b.translatedText = "" ∧ b.isTranslating = false

/-- The serialized characters of one SRT block, without its trailing
newline: index line, timestamp line, text. -/
def srtPartOf (i : Nat) (b : SubtitleBlock) : List Char :=
  natChars (i + 1) ++ '\n' ::
    ((b.startTime.data ++ ' ' :: '-' :: '-' :: '>' :: ' ' :: b.endTime.data) ++
      '\n' :: b.originalText.data)

/-- The expected output of the blank-line split on a serialized SRT file:
every block except the last loses its trailing newline to the separator
match. -/
def withLastNl : List (List Char) → List (List Char)
  | [] => []
  | [x] => [x ++ ['\n']]
  | x :: y :: rest => x :: withLastNl (y :: rest)

/-- The block `parseSRT` reconstructs from segment `b` when its part carries
the parse-counter id `id`. -/
def mkParsedBlock (id : Nat) (b : SubtitleBlock) : SubtitleBlock :=
  { id := id, startTime := b.startTime, endTime := b.endTime,
    originalText := b.originalText, translatedText := "", isTranslating := false }

theorem sepLen_two_le {cs : List Char} (h : sepLen cs ≠ 0) : 2 ≤ sepLen cs := by
  rcases cs with _ | ⟨c, rest⟩
  · simp [sepLen] at h
  · by_cases hc : c = '\n'
    · subst hc
      rcases hj : lastNlIdx (rest.takeWhile isJsWs) with _ | j
      · simp [sepLen, hj] at h
      · have hv : sepLen ('\n' :: rest) = j + 2 := by simp [sepLen, hj]
        omega
    · simp [sepLen, hc] at h

theorem splitBlankFuel_irrel : ∀ (f1 : Nat) (f2 : Nat) (cs acc : List Char),
    cs.length ≤ f1 → cs.length ≤ f2 →
    splitBlankFuel f1 cs acc = splitBlankFuel f2 cs acc := by
  intro f1
  induction f1 with
  | zero =>
    intro f2 cs acc h1 _
    rcases cs with _ | ⟨c, rest⟩
    · cases f2 <;> rfl
    · simp at h1
  | succ f ih =>
    intro f2 cs acc h1 h2
    rcases cs with _ | ⟨c, rest⟩
    · cases f2 <;> rfl
    · rcases f2 with _ | f2'
      · simp at h2
      · simp only [splitBlankFuel]
        by_cases hs : sepLen (c :: rest) = 0
        · simp only [if_pos hs]
          exact ih f2' rest (c :: acc) (by simp at h1; omega) (by simp at h2; omega)
        · simp only [if_neg hs]
          have hk := sepLen_two_le hs
          have hlen : ((c :: rest).drop (sepLen (c :: rest))).length ≤ f := by
            simp only [List.length_drop, List.length_cons]
            simp at h1
            omega
          have hlen2 : ((c :: rest).drop (sepLen (c :: rest))).length ≤ f2' := by
            simp only [List.length_drop, List.length_cons]
            simp at h2
            omega
          rw [ih f2' _ [] hlen hlen2]

theorem splitBlankGo_nil (acc : List Char) : splitBlankGo [] acc = [acc.reverse] := rfl

theorem splitBlankGo_consume {c : Char} {rest : List Char} (acc : List Char)
    (h : sepLen (c :: rest) = 0) :
    splitBlankGo (c :: rest) acc = splitBlankGo rest (c :: acc) := by
  simp only [splitBlankGo, List.length_cons, splitBlankFuel, if_pos h]

theorem splitBlankGo_sep {c : Char} {rest : List Char} (acc : List Char)
    (h : sepLen (c :: rest) ≠ 0) :
    splitBlankGo (c :: rest) acc =
      acc.reverse :: splitBlankGo ((c :: rest).drop (sepLen (c :: rest))) [] := by
  simp only [splitBlankGo, List.length_cons, splitBlankFuel, if_neg h]
  congr 1
  have hk := sepLen_two_le h
  apply splitBlankFuel_irrel
  · simp only [List.length_drop, List.length_cons]
    omega
  · exact Nat.le_refl _

/-! ## Lemmas: retry loop -/

/-- Closed-form unfolding of the three-iteration retry loop in terms of the
per-attempt outcomes. -/
theorem translateBatch_eq (texts : List String) (provider : LLMProvider)
    (cfg : Option CustomLLMConfig) (oracle : Nat → Except String JsValue) :
    translateBatch texts provider cfg oracle =
      match attemptOnce provider cfg texts oracle 0 with
      | Except.ok r => { result := Except.ok r, attempts := 1, waits := [] }
      | Except.error _ =>
        match attemptOnce provider cfg texts oracle 1 with
        | Except.ok r => { result := Except.ok r, attempts := 2, waits := [1000] }
        | Except.error _ =>
          match attemptOnce provider cfg texts oracle 2 with
          | Except.ok r => { result := Except.ok r, attempts := 3, waits := [1000, 2000] }
          | Except.error e => { result := Except.error e, attempts := 3, waits := [1000, 2000] } := by
  rcases h0 : attemptOnce provider cfg texts oracle 0 with e0 | r0
  · rcases h1 : attemptOnce provider cfg texts oracle 1 with e1 | r1
    · rcases h2 : attemptOnce provider cfg texts oracle 2 with e2 | r2
      · simp [translateBatch, translateLoop, maxRetries, h0, h1, h2]
      · simp [translateBatch, translateLoop, maxRetries, h0, h1, h2]
    · simp [translateBatch, translateLoop, maxRetries, h0, h1]
  · simp [translateBatch, translateLoop, maxRetries, h0]

/-! ## Claim theorems: C4, C3, C7 (translateBatch) -/

/-- Claim C4: `translateBatch` makes at most 3 attempts total per call (and
at least one); any error of an attempt — the whole `try` body is the
per-attempt outcome `attemptOnce` — counts as a failed attempt; the backoff
waits recorded between attempt k and attempt k+1 are `1000 * 2^(k-1)` ms
(1 s after the first failure, 2 s after the second); after the 3rd failed
attempt the error of that attempt propagates to the caller unchanged; and a
success outcome is the value of the last attempt, all earlier attempts
having failed. -/
theorem translateBatch_retry_backoff (texts : List String) (provider : LLMProvider)
    (cfg : Option CustomLLMConfig) (oracle : Nat → Except String JsValue) :
    (1 ≤ (translateBatch texts provider cfg oracle).attempts ∧
      (translateBatch texts provider cfg oracle).attempts ≤ 3) ∧
    (translateBatch texts provider cfg oracle).waits =
      (List.range ((translateBatch texts provider cfg oracle).attempts - 1)).map
        (fun j => 1000 * 2 ^ j) ∧
    (∀ e, (translateBatch texts provider cfg oracle).result = Except.error e →
      (translateBatch texts provider cfg oracle).attempts = 3 ∧
      attemptOnce provider cfg texts oracle 2 = Except.error e) ∧
    (∀ r, (translateBatch texts provider cfg oracle).result = Except.ok r →
      attemptOnce provider cfg texts oracle
        ((translateBatch texts provider cfg oracle).attempts - 1) = Except.ok r ∧
      (∀ k, k < (translateBatch texts provider cfg oracle).attempts - 1 →
        ∃ e, attemptOnce provider cfg texts oracle k = Except.error e)) := by
  rw [translateBatch_eq]
  rcases h0 : attemptOnce provider cfg texts oracle 0 with e0 | r0
  · rcases h1 : attemptOnce provider cfg texts oracle 1 with e1 | r1
    · rcases h2 : attemptOnce provider cfg texts oracle 2 with e2 | r2
      · dsimp only
        refine ⟨⟨by norm_num, by norm_num⟩, by decide, ?_, ?_⟩
        · intro e he
          cases he
          exact ⟨rfl, rfl⟩
        · intro r hr
          simp at hr
      · dsimp only
        refine ⟨⟨by norm_num, by norm_num⟩, by decide, ?_, ?_⟩
        · intro e he
          simp at he
        · intro r hr
          cases hr
          refine ⟨h2, ?_⟩
          intro k hk
          interval_cases k
          · exact ⟨e0, h0⟩
          · exact ⟨e1, h1⟩
    · dsimp only
      refine ⟨⟨by norm_num, by norm_num⟩, by decide, ?_, ?_⟩
      · intro e he
        simp at he
      · intro r hr
        cases hr
        refine ⟨h1, ?_⟩
        intro k hk
        interval_cases k
        exact ⟨e0, h0⟩
  · dsimp only
    refine ⟨⟨by norm_num, by norm_num⟩, by decide, ?_, ?_⟩
    · intro e he
      simp at he
    · intro r hr
      cases hr
      refine ⟨h0, ?_⟩
      intro k hk
      omega

/-- Witness for C4: with an always-failing oracle the call makes exactly 3
attempts, waits 1000 ms and then 2000 ms, and surfaces the original error. -/
theorem translateBatch_retry_backoff_witness :
    (translateBatch ["hi"] LLMProvider.GEMINI none failOracle).attempts = 3 ∧
    (translateBatch ["hi"] LLMProvider.GEMINI none failOracle).waits = [1000, 2000] := by
  have h := translateBatch_retry_backoff ["hi"] LLMProvider.GEMINI none failOracle
  have h3 : (translateBatch ["hi"] LLMProvider.GEMINI none failOracle).attempts = 3 :=
    (h.2.2.1 "E" rfl).1
  refine ⟨h3, ?_⟩
  rw [h.2.1, h3]
  decide

/-- Counterexample to claim C3: a CUSTOM-provider call with a missing
configuration is *not* surfaced immediately — the configuration error is
thrown inside the retry loop, so the call performs 3 attempts and waits
1000 ms and 2000 ms of backoff before the error reaches the caller. -/
theorem customConfig_error_retried_counterexample :
    (translateBatch ["hello"] LLMProvider.CUSTOM none okOracle).result =
      Except.error "Missing Custom Provider Configuration" ∧
    (translateBatch ["hello"] LLMProvider.CUSTOM none okOracle).attempts = 3 ∧
    (translateBatch ["hello"] LLMProvider.CUSTOM none okOracle).waits = [1000, 2000] ∧
    ¬((translateBatch ["hello"] LLMProvider.CUSTOM none okOracle).attempts = 1 ∧
      (translateBatch ["hello"] LLMProvider.CUSTOM none okOracle).waits = []) := by
  refine ⟨rfl, rfl, rfl, ?_⟩
  intro h
  have := h.1
  simp [translateBatch, translateLoop, maxRetries, attemptOnce, badCustomConfig] at this

/-- Claim C3 (amended): with the CUSTOM provider and a missing `baseUrl` or
`apiKey`, every attempt throws the configuration error, so the call fails
with exactly that error — but only after 3 attempts with backoff waits of
1000 ms and 2000 ms, like any other retryable error; the oracle is never
relevant to the outcome. -/
theorem customConfig_error_retried (texts : List String)
    (cfg : Option CustomLLMConfig) (oracle : Nat → Except String JsValue)
    (h : badCustomConfig cfg = true) :
    translateBatch texts LLMProvider.CUSTOM cfg oracle =
      { result := Except.error "Missing Custom Provider Configuration",
        attempts := 3, waits := [1000, 2000] } := by
  have ha : ∀ k, attemptOnce LLMProvider.CUSTOM cfg texts oracle k =
      Except.error "Missing Custom Provider Configuration" := by
    intro k
    simp [attemptOnce, h]
  rw [translateBatch_eq, ha 0, ha 1, ha 2]

/-- Witness for the amended C3 at a concrete empty-key configuration. -/
theorem customConfig_error_retried_witness :
    badCustomConfig (some emptyKeyConfig) = true ∧
    translateBatch ["hello"] LLMProvider.CUSTOM (some emptyKeyConfig) okOracle =
      { result := Except.error "Missing Custom Provider Configuration",
        attempts := 3, waits := [1000, 2000] } :=
  ⟨by decide, customConfig_error_retried ["hello"] _ okOracle (by decide)⟩

/-- Claim C7: with a single input text and a provider response whose
`translations` array has more than one element, the call succeeds on that
attempt and returns the single newline-join of all returned elements; with
more than one input text, a response array of any other length is a
retryable error (an `attemptOnce` failure), not a result. -/
theorem translateBatch_oversplit_merge (t : String) (texts : List String)
    (elems : List JsValue) (oracle : Nat → Except String JsValue)
    (ho : oracle 0 = Except.ok (JsValue.obj [("translations", JsValue.arr elems)])) :
    (texts = [t] → 1 < elems.length →
      translateBatch texts LLMProvider.GEMINI none oracle =
        { result := Except.ok [JsValue.str (String.mk (joinTranslations elems))],
          attempts := 1, waits := [] }) ∧
    (1 < texts.length → elems.length ≠ texts.length →
      attemptOnce LLMProvider.GEMINI none texts oracle 0 =
        Except.error (mismatchMsg texts.length elems.length)) := by
  constructor
  · intro ht hlen
    subst ht
    have ha : attemptOnce LLMProvider.GEMINI none [t] oracle 0 =
        Except.ok [JsValue.str (String.mk (joinTranslations elems))] := by
      simp [attemptOnce, ho, Except.bind, validateTranslations, getField, jsFalsy, hlen]
    rw [translateBatch_eq, ha]
  · intro hlen hne
    have hno : ¬(texts.length == 1 && decide (1 < elems.length)) = true := by
      simp only [Bool.and_eq_true, beq_iff_eq, decide_eq_true_eq]
      intro hcon
      omega
    simp [attemptOnce, ho, Except.bind, validateTranslations, getField, jsFalsy, hno, hne]

/-! ## Lemmas: line splitting -/

theorem splitNl_no_nl : ∀ (l : List Char), '\n' ∉ l → splitNl l = [l] := by
  intro l
  induction l with
  | nil => intro _; rfl
  | cons c rest ih =>
    intro h
    have hc : ¬(c = '\n') := fun hcc => h (hcc ▸ List.mem_cons_self c rest)
    have hrest : '\n' ∉ rest := fun hr => h (List.mem_cons_of_mem c hr)
    rw [splitNl, if_neg hc, ih hrest]

theorem splitNl_append_cons : ∀ (a b : List Char), '\n' ∉ a →
    splitNl (a ++ '\n' :: b) = a :: splitNl b := by
  intro a
  induction a with
  | nil =>
    intro b _
    simp only [List.nil_append]
    rw [splitNl, if_pos rfl]
  | cons c rest ih =>
    intro b h
    have hc : ¬(c = '\n') := fun hcc => h (hcc ▸ List.mem_cons_self c rest)
    have hrest : '\n' ∉ rest := fun hr => h (List.mem_cons_of_mem c hr)
    rw [List.cons_append, splitNl, if_neg hc, ih b hrest]

theorem splitNl_ne_nil : ∀ (l : List Char), splitNl l ≠ [] := by
  intro l
  induction l with
  | nil => simp [splitNl]
  | cons c rest ih =>
    rw [splitNl]
    split
    · simp
    · split
      · simp
      · simp

/-! ## Claim C8: LRC dual-mode serialization -/

/-- Counterexample to claim C8 as stated for *every* segment list: a segment
whose original text contains a newline produces three output lines in
`DUAL_TRANS_SRC` mode, and the third line (`"b"`) carries no timestamp
tag. -/
theorem stringifyLRC_dual_lines_counterexample :
    (splitNl (stringifyLRC [multilineLrcBlock] OutputFormat.DUAL_TRANS_SRC).data).length = 3 ∧
    (splitNl (stringifyLRC [multilineLrcBlock] OutputFormat.DUAL_TRANS_SRC).data).length
      ≠ 2 * [multilineLrcBlock].length ∧
    (splitNl (stringifyLRC [multilineLrcBlock] OutputFormat.DUAL_TRANS_SRC).data).getD 2 []
      = ['b'] := by
  refine ⟨rfl, by decide, rfl⟩

theorem join_pairs_length : ∀ (l : List (List (List Char))),
    (∀ x ∈ l, x.length = 2) → l.flatten.length = 2 * l.length := by
  intro l
  induction l with
  | nil => intro _; rfl
  | cons x xs ih =>
    intro h
    rw [List.flatten_cons, List.length_append,
      ih (fun y hy => h y (List.mem_cons_of_mem x hy)),
      h x (List.mem_cons_self x xs)]
    simp only [List.length_cons]
    omega

theorem nl_not_mem_tagline (st t : List Char) (hst : '\n' ∉ st) (ht : '\n' ∉ t) :
    '\n' ∉ ('[' :: st ++ [']']) ++ t := by
  intro hmem
  simp only [List.cons_append, List.mem_cons, List.mem_append,
    List.mem_singleton] at hmem
  rcases hmem with h | h
  · exact absurd h (by decide)
  · rcases h with h | h
    · rcases h with h | h
      · exact hst h
      · exact absurd h (by decide)
    · exact ht h

theorem joinWith_cons_cons (sep x y : List Char) (rest : List (List Char)) :
    joinWith sep (x :: y :: rest) = x ++ sep ++ joinWith sep (y :: rest) := rfl

theorem joinWith_append (sep : List Char) : ∀ (xs ys : List (List Char)),
    xs ≠ [] → ys ≠ [] →
    joinWith sep (xs ++ ys) = joinWith sep xs ++ sep ++ joinWith sep ys := by
  intro xs
  induction xs with
  | nil => intro ys h _; exact absurd rfl h
  | cons x xs ih =>
    intro ys _ hys
    rcases xs with _ | ⟨x2, xs2⟩
    · rcases ys with _ | ⟨y, ys2⟩
      · exact absurd rfl hys
      · rfl
    · rw [List.cons_append, List.cons_append, joinWith_cons_cons,
        joinWith_cons_cons, ← List.cons_append,
        ih ys (by simp) hys]
      simp [List.append_assoc]

theorem joinWith_flat (sep : List Char) : ∀ (xss : List (List (List Char))),
    (∀ xs ∈ xss, xs ≠ []) →
    joinWith sep (xss.map (joinWith sep)) = joinWith sep xss.flatten := by
  intro xss
  induction xss with
  | nil => intro _; rfl
  | cons xs xss ih =>
    intro h
    rcases hx : xss with _ | ⟨ys, yss⟩
    · simp [joinWith]
    · subst hx
      have hxsne : xs ≠ [] := h xs (List.mem_cons_self xs _)
      have hrestne : (ys :: yss).flatten ≠ [] := by
        intro hcon
        have := (List.flatten_eq_nil_iff.mp hcon) ys (List.mem_cons_self ys yss)
        exact h ys (List.mem_cons_of_mem xs (List.mem_cons_self ys yss)) this
      rw [List.map_cons, List.flatten_cons,
        joinWith_append sep xs ((ys :: yss).flatten) hxsne hrestne,
        ← ih (fun a ha => h a (List.mem_cons_of_mem xs ha))]
      rcases ys with _ | _
      · exact absurd rfl (h [] (List.mem_cons_of_mem xs (List.mem_cons_self [] yss)))
      · rfl

theorem splitNl_joinWith : ∀ (ls : List (List Char)), ls ≠ [] →
    (∀ l ∈ ls, '\n' ∉ l) → splitNl (joinWith ['\n'] ls) = ls := by
  intro ls
  induction ls with
  | nil => intro h _; exact absurd rfl h
  | cons l rest ih =>
    intro _ hnl
    rcases rest with _ | ⟨l2, rest2⟩
    · exact splitNl_no_nl l (hnl l (List.mem_cons_self l []))
    · rw [joinWith_cons_cons, List.append_assoc, List.singleton_append,
        splitNl_append_cons l _ (hnl l (List.mem_cons_self l _)),
        ih (by simp) (fun x hx => hnl x (List.mem_cons_of_mem l hx))]

/-- Claim C8 (amended): for every non-empty segment list whose `startTime`,
`originalText` and `translatedText` contain no newline (as holds for all
`parseLRC` output and single-line translations), `stringifyLRC` in a dual
output mode emits exactly two lines per segment, and both of a segment's
lines are re-prefixed with that segment's `[startTime]` tag (the lines are
exactly `lrcDualLines`). -/
theorem stringifyLRC_dual_two_lines (blocks : List SubtitleBlock) (fmt : OutputFormat)
    (hfmt : fmt = OutputFormat.DUAL_TRANS_SRC ∨ fmt = OutputFormat.DUAL_SRC_TRANS)
    (hne : blocks ≠ [])
    (hnl : ∀ b ∈ blocks, ('\n' ∉ b.startTime.data) ∧ ('\n' ∉ b.originalText.data) ∧
      ('\n' ∉ b.translatedText.data)) :
    splitNl (stringifyLRC blocks fmt).data = (blocks.map (lrcDualLines fmt)).flatten ∧
    (splitNl (stringifyLRC blocks fmt).data).length = 2 * blocks.length := by
  have hpairs : ∀ p ∈ blocks.map (lrcDualLines fmt), p ≠ [] := by
    intro p hp
    rcases List.mem_map.mp hp with ⟨b, _, hpb⟩
    subst hpb
    rcases hfmt with hf | hf <;> subst hf <;> simp [lrcDualLines]
  have hlines : ∀ l ∈ (blocks.map (lrcDualLines fmt)).flatten, '\n' ∉ l := by
    intro l hl
    rcases List.mem_flatten.mp hl with ⟨p, hp, hlp⟩
    rcases List.mem_map.mp hp with ⟨b, hbmem, hpb⟩
    subst hpb
    have hb := hnl b hbmem
    have htr : '\n' ∉ (if b.translatedText = "" then b.originalText.data
        else b.translatedText.data) := by
      split
      · exact hb.2.1
      · exact hb.2.2
    rcases hfmt with hf | hf <;> subst hf
    · dsimp only [lrcDualLines] at hlp
      rcases List.mem_cons.mp hlp with h | h
      · subst h
        exact nl_not_mem_tagline _ _ hb.1 htr
      · have h2 := List.mem_singleton.mp h
        subst h2
        exact nl_not_mem_tagline _ _ hb.1 hb.2.1
    · dsimp only [lrcDualLines] at hlp
      rcases List.mem_cons.mp hlp with h | h
      · subst h
        exact nl_not_mem_tagline _ _ hb.1 hb.2.1
      · have h2 := List.mem_singleton.mp h
        subst h2
        exact nl_not_mem_tagline _ _ hb.1 htr
  have hemit : stringifyLRC blocks fmt =
      String.mk (joinWith ['\n']
        (blocks.map (fun b => joinWith ['\n'] (lrcDualLines fmt b)))) := by
    unfold stringifyLRC
    congr 1
    congr 1
    apply List.map_congr_left
    intro b _
    rcases hfmt with hf | hf <;> subst hf <;>
      simp [lrcDualLines, joinWith, List.append_assoc]
  have hjoinne : (blocks.map (lrcDualLines fmt)).flatten ≠ [] := by
    intro hcon
    rcases blocks with _ | ⟨b, rest⟩
    · exact hne rfl
    · have hmem : lrcDualLines fmt b ∈ (b :: rest).map (lrcDualLines fmt) :=
        List.mem_map_of_mem _ (List.mem_cons_self b rest)
      exact hpairs (lrcDualLines fmt b) hmem ((List.flatten_eq_nil_iff.mp hcon) _ hmem)
  have main : splitNl (stringifyLRC blocks fmt).data
      = (blocks.map (lrcDualLines fmt)).flatten := by
    rw [hemit]
    show splitNl (joinWith ['\n']
      (blocks.map (fun b => joinWith ['\n'] (lrcDualLines fmt b)))) = _
    rw [show (blocks.map (fun b => joinWith ['\n'] (lrcDualLines fmt b))) =
        ((blocks.map (lrcDualLines fmt)).map (joinWith ['\n'])) from by
      rw [List.map_map]; rfl]
    rw [joinWith_flat ['\n'] (blocks.map (lrcDualLines fmt)) hpairs]
    exact splitNl_joinWith _ hjoinne hlines
  refine ⟨main, ?_⟩
  rw [main]
  have hlen := join_pairs_length (blocks.map (lrcDualLines fmt)) ?hpair
  case hpair =>
    intro x hx
    rcases List.mem_map.mp hx with ⟨b, _, hxb⟩
    subst hxb
    rcases hfmt with hf | hf <;> subst hf <;> simp [lrcDualLines]
  rw [hlen, List.length_map]

/-- Witness for the amended C8 over a concrete single-line two-segment
list. -/
theorem stringifyLRC_dual_two_lines_witness :
    splitNl (stringifyLRC twoBlocksT OutputFormat.DUAL_SRC_TRANS).data
      = (twoBlocksT.map (lrcDualLines OutputFormat.DUAL_SRC_TRANS)).flatten ∧
    (splitNl (stringifyLRC twoBlocksT OutputFormat.DUAL_SRC_TRANS).data).length = 4 :=
  (stringifyLRC_dual_two_lines twoBlocksT OutputFormat.DUAL_SRC_TRANS
    (Or.inr rfl) (by decide) (by decide))

/-! ## Claim C2: plain-text segmentation and ids -/

/-- Counterexample to claim C2: ids are assigned by paragraph position
*before* the empty paragraphs are filtered out, so `"\n\na"` — whose first
paragraph is empty — parses to a single segment whose id is 2, not 1. -/
theorem parsePlainText_id_gap_counterexample :
    (parsePlainText "\n\na").length = 1 ∧
    (parsePlainText "\n\na").map (fun b => b.id) = [2] ∧
    (parsePlainText "\n\na").map (fun b => b.id) ≠ [1] := by
  refine ⟨rfl, rfl, by decide⟩

/-- Claim C2 (amended): `parsePlainText` returns one segment per non-empty
(post-trim) paragraph of the blank-line split, each with both timestamps
equal to the placeholder and `id` equal to 1 + the index of its paragraph in
the split; the returned ids are strictly increasing, and they are exactly
`1..N` whenever no paragraph is dropped (in particular whenever every
paragraph is non-empty after trimming). -/
theorem parsePlainText_spec (content : String) :
    parsePlainText content
      = ((splitBlank content.data).enum.filter
          (fun pi => !(jsTrim pi.2).isEmpty)).map (fun pi =>
            { id := pi.1 + 1, startTime := "00:00:00,000", endTime := "00:00:00,000",
              originalText := String.mk (jsTrim pi.2), translatedText := "",
              isTranslating := false }) ∧
    List.Chain' (fun a b => a < b) ((parsePlainText content).map (fun b => b.id)) ∧
    ((∀ p ∈ splitBlank content.data, jsTrim p ≠ []) →
      (parsePlainText content).map (fun b => b.id)
        = List.range' 1 (splitBlank content.data).length) := by
  have hcomm : parsePlainText content
      = ((splitBlank content.data).enum.filter
          (fun pi => !(jsTrim pi.2).isEmpty)).map (fun pi =>
            { id := pi.1 + 1, startTime := "00:00:00,000", endTime := "00:00:00,000",
              originalText := String.mk (jsTrim pi.2), translatedText := "",
              isTranslating := false }) := by
    unfold parsePlainText
    rw [List.filter_map]
    congr 1
    apply List.filter_congr
    intro pi _
    show decide (0 < (String.mk (jsTrim pi.2)).length) = !(jsTrim pi.2).isEmpty
    rcases h : jsTrim pi.2 with _ | ⟨c, cs⟩
    · rfl
    · unfold String.length
      simp
  have hids : (parsePlainText content).map (fun b => b.id)
      = ((splitBlank content.data).enum.filter
          (fun pi => !(jsTrim pi.2).isEmpty)).map (fun pi => pi.1 + 1) := by
    rw [hcomm, List.map_map]
    rfl
  refine ⟨hcomm, ?_, ?_⟩
  · rw [hids]
    have hpw : List.Pairwise (fun a b : Nat × List Char => a.1 < b.1)
        (splitBlank content.data).enum := by
      have h1 : List.Pairwise (fun a b : Nat => a < b)
          ((splitBlank content.data).enum.map Prod.fst) := by
        rw [List.enum_map_fst]
        exact List.pairwise_lt_range _
      exact (List.pairwise_map.mp h1)
    have hpw2 : List.Pairwise (fun a b : Nat × List Char => a.1 < b.1)
        ((splitBlank content.data).enum.filter (fun pi => !(jsTrim pi.2).isEmpty)) :=
      hpw.sublist (List.filter_sublist _)
    have hpw3 : List.Pairwise (fun a b : Nat => a < b)
        (((splitBlank content.data).enum.filter
          (fun pi => !(jsTrim pi.2).isEmpty)).map (fun pi => pi.1 + 1)) := by
      rw [List.pairwise_map]
      exact hpw2.imp (fun h => by omega)
    exact List.Pairwise.chain' hpw3
  · intro hall
    rw [hids]
    have hfilter : ((splitBlank content.data).enum.filter
        (fun pi => !(jsTrim pi.2).isEmpty)) = (splitBlank content.data).enum := by
      apply List.filter_eq_self.mpr
      intro pi hpi
      have hp2 : pi.2 ∈ splitBlank content.data := by
        have := List.enum_map_snd (splitBlank content.data)
        have hmem : pi.2 ∈ (splitBlank content.data).enum.map Prod.snd :=
          List.mem_map_of_mem Prod.snd hpi
        rw [this] at hmem
        exact hmem
      have := hall pi.2 hp2
      rcases h : jsTrim pi.2 with _ | ⟨c, cs⟩
      · exact absurd h this
      · rfl
    rw [hfilter]
    have : ((splitBlank content.data).enum.map (fun pi => pi.1 + 1))
        = ((splitBlank content.data).enum.map Prod.fst).map (fun n => n + 1) := by
      rw [List.map_map]
      rfl
    rw [this, List.enum_map_fst]
    rw [List.range'_eq_map_range]
    apply List.map_congr_left
    intro n _
    omega

/-- Witness for the amended C2 (its last clause has a hypothesis): on
`"hello\n\nworld"` no paragraph is dropped and the ids are exactly 1, 2. -/
theorem parsePlainText_spec_witness :
    (parsePlainText "hello\n\nworld").map (fun b => b.id) = List.range' 1 2 :=
  ((parsePlainText_spec "hello\n\nworld").2.2 (by decide))

/-! ## Lemmas: fresh parses carry no translations -/

theorem parseSRTgo_fresh : ∀ (parts : List (List Char)) (n : Nat) (b : SubtitleBlock),
    b ∈ parseSRTgo parts n → b.translatedText = "" ∧ b.isTranslating = false := by
  intro parts
  induction parts with
  | nil => intro n b hb; simp [parseSRTgo] at hb
  | cons p rest ih =>
    intro n b hb
    rw [parseSRTgo] at hb
    dsimp only at hb
    split at hb
    · exact ih n b hb
    · split at hb
      · exact ih n b hb
      · split at hb
        · exact ih n b hb
        · split at hb
          · exact ih n b hb
          · split at hb
            · exact ih n b hb
            · rcases List.mem_cons.mp hb with hb1 | hb2
              · subst hb1; exact ⟨rfl, rfl⟩
              · exact ih (n + 1) b hb2

theorem parseLRCgo_fresh : ∀ (ls : List (List Char)) (n : Nat) (b : SubtitleBlock),
    b ∈ parseLRCgo ls n → b.translatedText = "" ∧ b.isTranslating = false := by
  intro ls
  induction ls with
  | nil => intro n b hb; simp [parseLRCgo] at hb
  | cons l rest ih =>
    intro n b hb
    rw [parseLRCgo] at hb
    dsimp only at hb
    split at hb
    · exact ih n b hb
    · split at hb
      · exact ih n b hb
      · rcases List.mem_cons.mp hb with hb1 | hb2
        · subst hb1; exact ⟨rfl, rfl⟩
        · exact ih (n + 1) b hb2

theorem parsePlainText_fresh (content : String) (b : SubtitleBlock)
    (hb : b ∈ parsePlainText content) :
    b.translatedText = "" ∧ b.isTranslating = false := by
  have hm := List.mem_filter.mp hb
  rcases List.mem_map.mp hm.1 with ⟨pi, _, hpi⟩
  subst hpi
  exact ⟨rfl, rfl⟩

theorem parseByType_fresh (ct : ContentType) (raw : String) (b : SubtitleBlock)
    (hb : b ∈ parseByType ct raw) :
    b.translatedText = "" ∧ b.isTranslating = false := by
  rcases ct with _ | _ | _ | _ <;>
    simp only [parseByType, parseSRT, parseLRC] at hb
  · exact parsePlainText_fresh _ _ hb
  · exact parseSRTgo_fresh _ _ _ hb
  · exact parseLRCgo_fresh _ _ _ hb
  · exact parsePlainText_fresh _ _ hb

/-! ## Claim theorem: C9 (reparse with positional translation carry) -/

theorem zip_carry_getD : ∀ (xs : List SubtitleBlock) (ts : List String) (i : Nat),
    i < xs.length → i < ts.length →
    ((xs.zip ts).map carryTranslation).getD i dummyBlock
      = { xs.getD i dummyBlock with translatedText := ts.getD i "" } := by
  intro xs
  induction xs with
  | nil => intro ts i h1 _; simp at h1
  | cons x xs ih =>
    intro ts i h1 h2
    rcases ts with _ | ⟨t, ts⟩
    · simp at h2
    · rcases i with _ | i
      · rfl
      · simp only [List.zip_cons_cons, List.map_cons, List.getD_cons_succ]
        exact ih ts i (by simp at h1; omega) (by simp at h2; omega)

theorem map_translated_getD : ∀ (xs : List SubtitleBlock) (i : Nat), i < xs.length →
    (xs.map (fun b => b.translatedText)).getD i "" =
      (xs.getD i dummyBlock).translatedText := by
  intro xs
  induction xs with
  | nil => intro i h; simp at h
  | cons x xs ih =>
    intro i h
    rcases i with _ | i
    · rfl
    · simp only [List.map_cons, List.getD_cons_succ]
      exact ih i (by simp at h; omega)

/-- Claim C9: when the content type changes with a non-empty raw text, the
reparse carries translations forward positionally iff the fresh parse has
exactly the old list's length — segment `i` of the new list then inherits
segment `i`'s `translatedText` from the old list, on top of the freshly
parsed segment; otherwise the result is exactly the fresh parse, in which
every segment's `translatedText` is empty. -/
theorem reparse_translation_carry (ct : ContentType) (raw : String)
    (blocks : List SubtitleBlock) (hraw : raw ≠ "") :
    ((parseByType ct raw).length = blocks.length →
      ∀ i, i < blocks.length →
        (reparseOnTypeChange ct raw blocks).getD i dummyBlock
          = { (parseByType ct raw).getD i dummyBlock with
              translatedText := (blocks.getD i dummyBlock).translatedText }) ∧
    ((parseByType ct raw).length ≠ blocks.length →
      reparseOnTypeChange ct raw blocks = parseByType ct raw ∧
      ∀ b ∈ reparseOnTypeChange ct raw blocks, b.translatedText = "") := by
  constructor
  · intro hlen i hi
    have hcond : (parseByType ct raw).length =
        (blocks.map (fun b => b.translatedText)).length := by
      rw [List.length_map]; exact hlen
    rw [reparseOnTypeChange, if_neg hraw]
    dsimp only
    rw [if_pos hcond]
    rw [zip_carry_getD _ _ i (by omega) (by simp; omega)]
    rw [map_translated_getD blocks i hi]
  · intro hlen
    have hcond : ¬((parseByType ct raw).length =
        (blocks.map (fun b => b.translatedText)).length) := by
      rw [List.length_map]; exact hlen
    have heq : reparseOnTypeChange ct raw blocks = parseByType ct raw := by
      rw [reparseOnTypeChange, if_neg hraw]
      dsimp only
      rw [if_neg hcond]
    refine ⟨heq, ?_⟩
    intro b hb
    rw [heq] at hb
    exact (parseByType_fresh ct raw b hb).1

/-! ## Lemmas: indexed maps over the segment list -/

theorem enumFrom_map_getElem? (f : Nat × SubtitleBlock → SubtitleBlock) :
    ∀ (l : List SubtitleBlock) (n i : Nat),
    ((List.enumFrom n l).map f)[i]? = (l[i]?).map (fun b => f (n + i, b)) := by
  intro l
  induction l with
  | nil => intro n i; simp
  | cons x xs ih =>
    intro n i
    rcases i with _ | i
    · simp
    · simp only [List.enumFrom, List.map_cons, List.getElem?_cons_succ]
      rw [ih (n + 1) i]
      have harith : n + 1 + i = n + (i + 1) := by omega
      rw [harith]

theorem jsOr_ne_empty (a : String) {b : String} (hb : b ≠ "") : jsOr a b ≠ "" := by
  unfold jsOr
  split
  · exact hb
  · assumption

theorem applyChunkResult_getD (blocks : List SubtitleBlock) (s e : Nat)
    (ts : List String) (idx : Nat) (hidx : idx < blocks.length) :
    (applyChunkResult blocks s e ts).getD idx dummyBlock =
      (if s ≤ idx ∧ idx < e then
        { blocks.getD idx dummyBlock with
          translatedText :=
            jsOr (ts.getD (idx - s) "") ((blocks.getD idx dummyBlock).originalText),
          isTranslating := false }
      else blocks.getD idx dummyBlock) := by
  have hb : blocks[idx]? = some (blocks.getD idx dummyBlock) := by
    rw [List.getD_eq_getElem?_getD, List.getElem?_eq_getElem hidx]
    rfl
  unfold applyChunkResult
  rw [List.getD_eq_getElem?_getD, show List.enum blocks = List.enumFrom 0 blocks from rfl,
    enumFrom_map_getElem? _ blocks 0 idx, hb]
  simp

theorem markTranslating_getD (blocks : List SubtitleBlock) (s e : Nat)
    (idx : Nat) (hidx : idx < blocks.length) :
    (markTranslating blocks s e).getD idx dummyBlock =
      (if s ≤ idx ∧ idx < e then
        { blocks.getD idx dummyBlock with isTranslating := true }
      else blocks.getD idx dummyBlock) := by
  have hb : blocks[idx]? = some (blocks.getD idx dummyBlock) := by
    rw [List.getD_eq_getElem?_getD, List.getElem?_eq_getElem hidx]
    rfl
  unfold markTranslating
  rw [List.getD_eq_getElem?_getD, show List.enum blocks = List.enumFrom 0 blocks from rfl,
    enumFrom_map_getElem? _ blocks 0 idx, hb]
  simp

theorem applyChunkResult_length (blocks : List SubtitleBlock) (s e : Nat)
    (ts : List String) : (applyChunkResult blocks s e ts).length = blocks.length := by
  unfold applyChunkResult
  rw [List.length_map, List.enum_length]

theorem markTranslating_length (blocks : List SubtitleBlock) (s e : Nat) :
    (markTranslating blocks s e).length = blocks.length := by
  unfold markTranslating
  rw [List.length_map, List.enum_length]

theorem clearTranslating_length (blocks : List SubtitleBlock) :
    (clearTranslating blocks).length = blocks.length := by
  unfold clearTranslating
  rw [List.length_map]

/-! ## Claim theorem: C10 (success write-back substitutes originals) -/

/-- Claim C10 (implicit): on a successful chunk the driver writes each
in-chunk segment's `translatedText` as the provider's string when it is
non-empty and otherwise substitutes the segment's `originalText` (also when
the returned list is too short); consequently, if every segment has a
non-empty `originalText`, no in-chunk segment is left with an empty
`translatedText`, even when the provider returned an empty string. -/
theorem chunk_writeback_nonempty (blocks : List SubtitleBlock) (s e : Nat)
    (ts : List String) :
    (∀ idx, s ≤ idx → idx < e → idx < blocks.length →
      ((applyChunkResult blocks s e ts).getD idx dummyBlock).translatedText
        = jsOr (ts.getD (idx - s) "") ((blocks.getD idx dummyBlock).originalText) ∧
      ((applyChunkResult blocks s e ts).getD idx dummyBlock).isTranslating = false) ∧
    ((∀ b ∈ blocks, b.originalText ≠ "") →
      ∀ idx, s ≤ idx → idx < e → idx < blocks.length →
        ((applyChunkResult blocks s e ts).getD idx dummyBlock).translatedText ≠ "") := by
  constructor
  · intro idx h1 h2 h3
    rw [applyChunkResult_getD blocks s e ts idx h3, if_pos ⟨h1, h2⟩]
    exact ⟨rfl, rfl⟩
  · intro horig idx h1 h2 h3
    rw [applyChunkResult_getD blocks s e ts idx h3, if_pos ⟨h1, h2⟩]
    refine jsOr_ne_empty _ (horig _ ?_)
    rw [List.getD_eq_getElem?_getD, List.getElem?_eq_getElem h3]
    exact List.getElem_mem h3

/-- Witness for C10: a chunk result of `[""]` over a segment with original
text `"hello"` leaves `"hello"` as the translation — not the empty string. -/
theorem chunk_writeback_nonempty_witness :
    ((applyChunkResult [helloBlock] 0 1 [""]).getD 0 dummyBlock).translatedText = "hello" ∧
    ((applyChunkResult [helloBlock] 0 1 [""]).getD 0 dummyBlock).translatedText ≠ "" := by
  have h := chunk_writeback_nonempty [helloBlock] 0 1 [""]
  refine ⟨?_, h.2 (by decide) 0 (by decide) (by decide) (by decide)⟩
  rw [(h.1 0 (by decide) (by decide) (by decide)).1]
  rfl

/-! ## Claim C1: the chunk context is read from the stale closure -/

/-- Evaluation of the driver at the failing input of claim C1: with 12
fresh segments and a provider returning non-empty translations, exactly two
chunks are dispatched, and chunk 0 does write `"X"` into segment 9 — but the
second chunk's context is `"Previous sentence: "` built from the stale
pre-run list, not from segment 9's completed translation. -/
theorem chunk_context_stale_eval :
    (startTranslation blocksTwelve tbAllX).calls.length = 2 ∧
    ((startTranslation blocksTwelve tbAllX).blocks.getD 9 dummyBlock).translatedText
      = "X" ∧
    ((startTranslation blocksTwelve tbAllX).calls.getD 1
        { texts := [], context := none }).context
      = some "Previous sentence: " ∧
    ((startTranslation blocksTwelve tbAllX).calls.getD 1
        { texts := [], context := none }).context
      ≠ some ("Previous sentence: " ++
          ((startTranslation blocksTwelve tbAllX).blocks.getD 9
            dummyBlock).translatedText) := by
  refine ⟨rfl, rfl, rfl, by decide⟩

/-- Witness for C9: reparsing `"a\n\nb"` as plain text against a 2-segment
list with translations keeps the translation at index 1; reparsing
`"a\n\nb\n\nc"` (3 segments) drops all translations. -/
theorem reparse_translation_carry_witness :
    (reparseOnTypeChange ContentType.PLAIN_TEXT "a\n\nb" twoBlocksT).getD 1 dummyBlock
      = { (parseByType ContentType.PLAIN_TEXT "a\n\nb").getD 1 dummyBlock with
          translatedText := (twoBlocksT.getD 1 dummyBlock).translatedText } ∧
    reparseOnTypeChange ContentType.PLAIN_TEXT "a\n\nb\n\nc" twoBlocksT
      = parseByType ContentType.PLAIN_TEXT "a\n\nb\n\nc" :=
  ⟨(reparse_translation_carry ContentType.PLAIN_TEXT "a\n\nb" twoBlocksT
      (by decide)).1 (by decide) 1 (by decide),
   ((reparse_translation_carry ContentType.PLAIN_TEXT "a\n\nb\n\nc" twoBlocksT
      (by decide)).2 (by decide)).1⟩

/-- Witness for C7: input `["x"]` with response `["a", "b"]` yields exactly
`["a\nb"]` in one attempt; inputs `["x","y","z"]` with a 2-element response
fail that attempt with the length-mismatch error. -/
theorem translateBatch_oversplit_merge_witness :
    translateBatch ["x"] LLMProvider.GEMINI none
        (fun _ => Except.ok (JsValue.obj
          [("translations", JsValue.arr [JsValue.str "a", JsValue.str "b"])])) =
      { result := Except.ok [JsValue.str "a\nb"], attempts := 1, waits := [] } ∧
    attemptOnce LLMProvider.GEMINI none ["x", "y", "z"]
        (fun _ => Except.ok (JsValue.obj
          [("translations", JsValue.arr [JsValue.str "a", JsValue.str "b"])])) 0 =
      Except.error "Length mismatch: Expected 3, got 2" := by
  constructor
  · have h := translateBatch_oversplit_merge "x" ["x"]
      [JsValue.str "a", JsValue.str "b"]
      (fun _ => Except.ok (JsValue.obj
        [("translations", JsValue.arr [JsValue.str "a", JsValue.str "b"])])) rfl
    have := h.1 rfl (by norm_num)
    rw [this]
    rfl
  · have h := translateBatch_oversplit_merge "x" ["x", "y", "z"]
      [JsValue.str "a", JsValue.str "b"]
      (fun _ => Except.ok (JsValue.obj
        [("translations", JsValue.arr [JsValue.str "a", JsValue.str "b"])])) rfl
    have := h.2 (by norm_num) (by norm_num)
    rw [this]
    rfl

/-! ## Claim C6: partial-failure semantics of the driver -/

theorem clearTranslating_getD (blocks : List SubtitleBlock) (idx : Nat)
    (h : idx < blocks.length) :
    (clearTranslating blocks).getD idx dummyBlock =
      { blocks.getD idx dummyBlock with isTranslating := false } := by
  have hb : blocks[idx]? = some (blocks.getD idx dummyBlock) := by
    rw [List.getD_eq_getElem?_getD, List.getElem?_eq_getElem h]
    rfl
  unfold clearTranslating
  rw [List.getD_eq_getElem?_getD, List.getElem?_map, hb]
  rfl

theorem step_blocks_getD (blocks : List SubtitleBlock) (s e' : Nat)
    (ts : List String) (idx : Nat) (h : idx < blocks.length) :
    (applyChunkResult (markTranslating blocks s e') s e' ts).getD idx dummyBlock =
      (if s ≤ idx ∧ idx < e' then
        { blocks.getD idx dummyBlock with
          translatedText :=
            jsOr (ts.getD (idx - s) "") ((blocks.getD idx dummyBlock).originalText),
          isTranslating := false }
      else blocks.getD idx dummyBlock) := by
  rw [applyChunkResult_getD _ _ _ _ idx (by rw [markTranslating_length]; exact h),
    markTranslating_getD _ _ _ idx h]
  by_cases hin : s ≤ idx ∧ idx < e'
  · rw [if_pos hin, if_pos hin, if_pos hin]
  · rw [if_neg hin, if_neg hin, if_neg hin]

theorem fail_blocks_getD (blocks : List SubtitleBlock) (s e' : Nat) (idx : Nat)
    (h : idx < blocks.length) :
    (clearTranslating (markTranslating blocks s e')).getD idx dummyBlock =
      { blocks.getD idx dummyBlock with isTranslating := false } := by
  rw [clearTranslating_getD _ idx (by rw [markTranslating_length]; exact h),
    markTranslating_getD _ _ _ idx h]
  by_cases hin : s ≤ idx ∧ idx < e'
  · rw [if_pos hin]
  · rw [if_neg hin]

/-- The loop invariant carried by `driveLoop` up to a failing chunk `k`:
starting at chunk `i ≤ k` with a state whose segment list has the original
length, original texts and untouched translations above `10*i`, the written
translations below `10*i`, and `i` recorded calls, the loop runs to chunk
`k`, fails there, and leaves exactly the earlier chunks' results, everything
else untouched, all flags cleared, `k+1` calls and the surfaced error. -/
theorem driveLoop_fail_invariant (blocks0 : List SubtitleBlock)
    (tb : Nat → Except String (List String)) (k : Nat) (e : String)
    (sf : Nat → List String)
    (hfail : tb k = Except.error e)
    (hsucc : ∀ j, j < k → tb j = Except.ok (sf j))
    (hk : k < totalBatches blocks0) :
    ∀ (d i : Nat) (st : DriverState), k - i = d → i ≤ k →
    st.blocks.length = blocks0.length →
    (∀ idx, idx < blocks0.length →
      (st.blocks.getD idx dummyBlock).originalText =
        (blocks0.getD idx dummyBlock).originalText) →
    (∀ idx, idx < blocks0.length → 10 * i ≤ idx →
      (st.blocks.getD idx dummyBlock).translatedText =
        (blocks0.getD idx dummyBlock).translatedText) →
    (∀ idx, idx < blocks0.length → idx < 10 * i →
      (st.blocks.getD idx dummyBlock).translatedText =
        jsOr ((sf (idx / 10)).getD (idx % 10) "")
          ((blocks0.getD idx dummyBlock).originalText)) →
    st.calls.length = i →
    (driveLoop blocks0 tb i (totalBatches blocks0 - i) st).calls.length = k + 1 ∧
    (driveLoop blocks0 tb i (totalBatches blocks0 - i) st).failure =
      some (jsOr e "未知错误") ∧
    (driveLoop blocks0 tb i (totalBatches blocks0 - i) st).blocks.length =
      blocks0.length ∧
    (∀ idx, idx < blocks0.length →
      ((driveLoop blocks0 tb i (totalBatches blocks0 - i) st).blocks.getD idx
        dummyBlock).isTranslating = false) ∧
    (∀ idx, idx < blocks0.length → 10 * k ≤ idx →
      ((driveLoop blocks0 tb i (totalBatches blocks0 - i) st).blocks.getD idx
        dummyBlock).translatedText = (blocks0.getD idx dummyBlock).translatedText) ∧
    (∀ idx, idx < blocks0.length → idx < 10 * k →
      ((driveLoop blocks0 tb i (totalBatches blocks0 - i) st).blocks.getD idx
        dummyBlock).translatedText =
        jsOr ((sf (idx / 10)).getD (idx % 10) "")
          ((blocks0.getD idx dummyBlock).originalText)) := by
  intro d
  induction d with
  | zero =>
    intro i st hd hik hlen horig hup hdown hcalls
    have hik2 : i = k := by omega
    subst hik2
    have hfuel : totalBatches blocks0 - i = (totalBatches blocks0 - i - 1) + 1 := by
      omega
    rw [hfuel]
    simp only [driveLoop]
    rw [hfail]
    dsimp only
    have hmlen : (markTranslating st.blocks (i * 10)
        (min (i * 10 + 10) blocks0.length)).length = blocks0.length := by
      rw [markTranslating_length, hlen]
    refine ⟨?_, rfl, ?_, ?_, ?_, ?_⟩
    · simp [hcalls]
    · rw [clearTranslating_length, hmlen]
    · intro idx hidx
      rw [fail_blocks_getD st.blocks _ _ idx (by omega)]
    · intro idx hidx hge
      rw [fail_blocks_getD st.blocks _ _ idx (by omega)]
      exact hup idx hidx (by omega)
    · intro idx hidx hlt
      rw [fail_blocks_getD st.blocks _ _ idx (by omega)]
      exact hdown idx hidx (by omega)
  | succ d ih =>
    intro i st hd hik hlen horig hup hdown hcalls
    have hiklt : i < k := by omega
    have hitot : i < totalBatches blocks0 := by omega
    have hfuel : totalBatches blocks0 - i = (totalBatches blocks0 - (i + 1)) + 1 := by
      omega
    rw [hfuel]
    simp only [driveLoop]
    rw [hsucc i hiklt]
    dsimp only
    refine ih (i + 1) _ (by omega) (by omega) ?_ ?_ ?_ ?_ ?_
    · show (applyChunkResult (markTranslating st.blocks (i * 10)
          (min (i * 10 + 10) blocks0.length)) (i * 10)
          (min (i * 10 + 10) blocks0.length) (sf i)).length = blocks0.length
      rw [applyChunkResult_length, markTranslating_length, hlen]
    · intro idx hidx
      show ((applyChunkResult (markTranslating st.blocks (i * 10)
          (min (i * 10 + 10) blocks0.length)) (i * 10)
          (min (i * 10 + 10) blocks0.length) (sf i)).getD idx
          dummyBlock).originalText = _
      rw [step_blocks_getD st.blocks _ _ _ idx (by omega)]
      split
      · exact horig idx hidx
      · exact horig idx hidx
    · intro idx hidx hge
      show ((applyChunkResult (markTranslating st.blocks (i * 10)
          (min (i * 10 + 10) blocks0.length)) (i * 10)
          (min (i * 10 + 10) blocks0.length) (sf i)).getD idx
          dummyBlock).translatedText = _
      rw [step_blocks_getD st.blocks _ _ _ idx (by omega)]
      rw [if_neg (by omega)]
      exact hup idx hidx (by omega)
    · intro idx hidx hlt
      show ((applyChunkResult (markTranslating st.blocks (i * 10)
          (min (i * 10 + 10) blocks0.length)) (i * 10)
          (min (i * 10 + 10) blocks0.length) (sf i)).getD idx
          dummyBlock).translatedText = _
      rw [step_blocks_getD st.blocks _ _ _ idx (by omega)]
      by_cases hin : i * 10 ≤ idx ∧ idx < min (i * 10 + 10) blocks0.length
      · rw [if_pos hin]
        have hdiv : idx / 10 = i := by omega
        have hmod : idx % 10 = idx - i * 10 := by omega
        rw [hdiv, hmod, horig idx hidx]
      · rw [if_neg hin]
        exact hdown idx hidx (by omega)
    · show (st.calls ++ [_]).length = i + 1
      simp [hcalls]

/-- Claim C6: when chunk `k` fails (after `translateBatch` exhausted its
retries) the driver stops immediately: exactly `k+1` calls were dispatched,
the error message is surfaced, the segment list keeps its length, segments
of earlier chunks keep the translations written for them, segments of the
failing chunk and of all later chunks still have their pre-run (empty)
`translatedText`, and every segment's `isTranslating` flag is false. -/
theorem driver_partial_failure (blocks0 : List SubtitleBlock)
    (tb : Nat → Except String (List String)) (k : Nat) (e : String)
    (sf : Nat → List String)
    (hempty : ∀ b ∈ blocks0, b.translatedText = "")
    (hk : k < totalBatches blocks0)
    (hfail : tb k = Except.error e)
    (hsucc : ∀ j, j < k → tb j = Except.ok (sf j)) :
    (startTranslation blocks0 tb).calls.length = k + 1 ∧
    (startTranslation blocks0 tb).failure = some (jsOr e "未知错误") ∧
    (startTranslation blocks0 tb).blocks.length = blocks0.length ∧
    (∀ b ∈ (startTranslation blocks0 tb).blocks, b.isTranslating = false) ∧
    (∀ idx, idx < blocks0.length → 10 * k ≤ idx →
      ((startTranslation blocks0 tb).blocks.getD idx dummyBlock).translatedText = "") ∧
    (∀ idx, idx < blocks0.length → idx < 10 * k →
      ((startTranslation blocks0 tb).blocks.getD idx dummyBlock).translatedText =
        jsOr ((sf (idx / 10)).getD (idx % 10) "")
          ((blocks0.getD idx dummyBlock).originalText)) := by
  have hlen0 : ¬(blocks0.length = 0) := by
    unfold totalBatches at hk
    omega
  have hinv := driveLoop_fail_invariant blocks0 tb k e sf hfail hsucc hk k 0
    ⟨blocks0, true, 0, [], none⟩ (by omega) (by omega) rfl
    (fun idx _ => rfl) (fun idx _ _ => rfl) (fun idx _ hlt => by omega) rfl
  simp only [Nat.sub_zero] at hinv
  have hgetmem : ∀ idx, idx < blocks0.length →
      blocks0.getD idx dummyBlock ∈ blocks0 := by
    intro idx hidx
    rw [List.getD_eq_getElem?_getD, List.getElem?_eq_getElem hidx]
    exact List.getElem_mem hidx
  rw [startTranslation, if_neg hlen0]
  refine ⟨hinv.1, hinv.2.1, hinv.2.2.1, ?_, ?_, hinv.2.2.2.2.2⟩
  · intro b hb
    rcases List.mem_iff_getElem.mp hb with ⟨idx, hidx, hbeq⟩
    have hidx2 : idx < blocks0.length := by
      rw [← hinv.2.2.1]
      exact hidx
    have hflag := hinv.2.2.2.1 idx hidx2
    have hgd : (driveLoop blocks0 tb 0 (totalBatches blocks0)
        ⟨blocks0, true, 0, [], none⟩).blocks.getD idx dummyBlock = b := by
      rw [List.getD_eq_getElem?_getD, List.getElem?_eq_getElem hidx]
      exact hbeq
    rw [← hgd]
    exact hflag
  · intro idx hidx hge
    rw [hinv.2.2.2.2.1 idx hidx hge]
    exact hempty _ (hgetmem idx hidx)

/-- Witness for C6 at 12 fresh segments with a failure on the second chunk:
two calls were made, the error is surfaced, chunk-0 segments keep `"X"`, the
failing chunk's segments stay empty, and no flag is left set. -/
theorem driver_partial_failure_witness :
    (startTranslation blocksTwelve tbFailAt1).calls.length = 2 ∧
    (startTranslation blocksTwelve tbFailAt1).failure = some "boom" ∧
    ((startTranslation blocksTwelve tbFailAt1).blocks.getD 5 dummyBlock).translatedText
      = "X" ∧
    ((startTranslation blocksTwelve tbFailAt1).blocks.getD 11 dummyBlock).translatedText
      = "" := by
  have h := driver_partial_failure blocksTwelve tbFailAt1 1 "boom"
    (fun _ => List.replicate 10 "X") (by decide) (by decide) rfl
    (fun j hj => by
      have hj0 : j = 0 := by omega
      subst hj0
      rfl)
  refine ⟨h.1, h.2.1, ?_, h.2.2.2.2.1 11 (by decide) (by decide)⟩
  rw [h.2.2.2.2.2 5 (by decide) (by decide)]
  rfl

/-! ## Claim C5: SRT round trip -/

/-- Counterexample to claim C5 as stated for *every* input: because
`replace(/\r\n/g, '\n')` is not idempotent, the cue text parsed from
`crInput` is `"a\r\nb"`, but re-parsing its serialization normalizes the
embedded `\r\n` and yields `"a\nb"` — the `originalText` sequence is not
reproduced (while the claim's proviso holds: no translation is set). -/
theorem srt_roundtrip_counterexample :
    (parseSRT crInput).map (fun b => b.originalText) = ["a\r\nb"] ∧
    (parseSRT (stringifySRT (parseSRT crInput) OutputFormat.ONLY_TRANSLATION)).map
      (fun b => b.originalText) = ["a\nb"] ∧
    (["a\nb"] : List String) ≠ ["a\r\nb"] ∧
    (∀ b ∈ parseSRT crInput, b.translatedText = "") := by
  refine ⟨rfl, rfl, by decide, by decide⟩

theorem digit_not_ws {c : Char} (h : isDigitCh c = true) : isJsWs c = false := by
  simp only [isDigitCh, Bool.and_eq_true, decide_eq_true_eq] at h
  simp only [isJsWs, Bool.or_eq_false_iff, Bool.and_eq_false_iff,
    decide_eq_false_iff_not]
  omega

theorem mem_takeWhile_append {p : Char → Bool} {x : Char} :
    ∀ (a b : List Char), x ∈ a.takeWhile p → x ∈ (a ++ b).takeWhile p := by
  intro a
  induction a with
  | nil => intro b h; simp [List.takeWhile] at h
  | cons c rest ih =>
    intro b h
    rw [List.takeWhile_cons] at h
    rw [show (c :: rest ++ b) = c :: (rest ++ b) from rfl, List.takeWhile_cons]
    by_cases hc : p c = true
    · rw [if_pos hc] at h ⊢
      rcases List.mem_cons.mp h with h1 | h2
      · exact h1 ▸ List.mem_cons_self c _
      · exact List.mem_cons_of_mem c (ih b h2)
    · rw [if_neg hc] at h
      simp at h

theorem nbCtx_nil : ∀ (l : List Char), nbCtx [] l = nbOk l := by
  intro l
  induction l with
  | nil => rfl
  | cons c rest ih =>
    rw [nbCtx, nbOk, List.append_nil, ih]

theorem nbCtx_to_nbOk : ∀ (l ctx : List Char), nbCtx ctx l = true → nbOk l = true := by
  intro l
  induction l with
  | nil => intro ctx _; rfl
  | cons c rest ih =>
    intro ctx h
    rw [nbCtx, Bool.and_eq_true] at h
    rw [nbOk, Bool.and_eq_true]
    refine ⟨?_, ih ctx h.2⟩
    by_cases hc : c = '\n'
    · rw [if_pos hc]
      rw [if_pos hc] at h
      have h1 := h.1
      simp only [Bool.not_eq_true', List.any_eq_false] at h1 ⊢
      intro x hx
      exact h1 x (mem_takeWhile_append rest ctx hx)
    · rw [if_neg hc]

theorem nbCtx_snoc : ∀ (acc : List Char) (c : Char) (rest : List Char),
    nbCtx (c :: rest) acc = true →
    (c = '\n' → ((rest.takeWhile isJsWs).any (fun x => x = '\n')) = false) →
    nbCtx rest (acc ++ [c]) = true := by
  intro acc
  induction acc with
  | nil =>
    intro c rest _ hcond
    rw [List.nil_append, nbCtx, Bool.and_eq_true]
    refine ⟨?_, rfl⟩
    by_cases hc : c = '\n'
    · rw [if_pos hc]
      rw [List.nil_append]
      simp only [Bool.not_eq_true']
      exact hcond hc
    · rw [if_neg hc]
  | cons a acc ih =>
    intro c rest h hcond
    rw [nbCtx, Bool.and_eq_true] at h
    rw [List.cons_append, nbCtx, Bool.and_eq_true]
    constructor
    · have h1 := h.1
      rw [show (acc ++ [c]) ++ rest = acc ++ (c :: rest) from by
        rw [List.append_assoc]; rfl]
      exact h1
    · exact ih c rest h.2 hcond

theorem lastNlIdx_none : ∀ (l : List Char), lastNlIdx l = none → '\n' ∉ l := by
  intro l h
  unfold lastNlIdx at h
  rcases hf : l.reverse.findIdx? (fun c => c = '\n') with _ | k
  · have := List.findIdx?_eq_none_iff.mp hf
    intro hmem
    have := this '\n' (List.mem_reverse.mpr hmem)
    simp at this
  · rw [hf] at h
    simp at h

theorem sepLen_zero_nl {rest : List Char} (h : sepLen ('\n' :: rest) = 0) :
    ((rest.takeWhile isJsWs).any (fun x => x = '\n')) = false := by
  dsimp only [sepLen] at h
  rw [if_pos rfl] at h
  rcases hl : lastNlIdx (rest.takeWhile isJsWs) with _ | j
  · have hnm := lastNlIdx_none _ hl
    simp only [List.any_eq_false]
    intro x hx
    have hcon : ¬(x = '\n') := fun hxe => hnm (hxe ▸ hx)
    simpa using hcon
  · rw [hl] at h
    simp at h

theorem splitBlankFuel_parts : ∀ (fuel : Nat) (cs acc : List Char),
    cs.length ≤ fuel → nbCtx cs acc.reverse = true →
    ∀ p ∈ splitBlankFuel fuel cs acc,
      nbOk p = true ∧ (∀ x ∈ p, x ∈ cs ∨ x ∈ acc) := by
  intro fuel
  induction fuel with
  | zero =>
    intro cs acc hlen hctx p hp
    rcases cs with _ | ⟨c, rest⟩
    · rw [splitBlankFuel] at hp
      rcases List.mem_singleton.mp hp with rfl
      refine ⟨nbCtx_to_nbOk _ _ hctx, ?_⟩
      intro x hx
      exact Or.inr (List.mem_reverse.mp hx)
    · simp at hlen
  | succ fuel ih =>
    intro cs acc hlen hctx p hp
    rcases cs with _ | ⟨c, rest⟩
    · rw [splitBlankFuel] at hp
      rcases List.mem_singleton.mp hp with rfl
      refine ⟨nbCtx_to_nbOk _ _ hctx, ?_⟩
      intro x hx
      exact Or.inr (List.mem_reverse.mp hx)
    · rw [splitBlankFuel] at hp
      by_cases hs : sepLen (c :: rest) = 0
      · rw [if_pos hs] at hp
        have hctx2 : nbCtx rest (c :: acc).reverse = true := by
          rw [List.reverse_cons]
          apply nbCtx_snoc acc.reverse c rest hctx
          intro hc
          subst hc
          exact sepLen_zero_nl hs
        have := ih rest (c :: acc) (by simp at hlen; omega) hctx2 p hp
        refine ⟨this.1, ?_⟩
        intro x hx
        rcases this.2 x hx with h1 | h2
        · exact Or.inl (List.mem_cons_of_mem c h1)
        · rcases List.mem_cons.mp h2 with h3 | h4
          · exact Or.inl (h3 ▸ List.mem_cons_self c rest)
          · exact Or.inr h4
      · rw [if_neg hs] at hp
        rcases List.mem_cons.mp hp with hp1 | hp2
        · subst hp1
          refine ⟨nbCtx_to_nbOk _ _ hctx, ?_⟩
          intro x hx
          exact Or.inr (List.mem_reverse.mp hx)
        · have hdlen : ((c :: rest).drop (sepLen (c :: rest))).length ≤ fuel := by
            have := sepLen_two_le hs
            simp only [List.length_drop, List.length_cons]
            simp at hlen
            omega
          have := ih ((c :: rest).drop (sepLen (c :: rest))) [] hdlen rfl p hp2
          refine ⟨this.1, ?_⟩
          intro x hx
          rcases this.2 x hx with h1 | h2
          · exact Or.inl (List.drop_subset _ _ h1)
          · simp at h2

theorem splitBlank_parts (cs : List Char) :
    ∀ p ∈ splitBlank cs, nbOk p = true ∧ (∀ x ∈ p, x ∈ cs) := by
  intro p hp
  have := splitBlankFuel_parts cs.length cs [] (Nat.le_refl _) rfl p hp
  refine ⟨this.1, ?_⟩
  intro x hx
  rcases this.2 x hx with h1 | h2
  · exact h1
  · simp at h2

theorem dropWhile_suffix (p : Char → Bool) : ∀ (l : List Char),
    ∃ t, l = t ++ l.dropWhile p := by
  intro l
  induction l with
  | nil => exact ⟨[], rfl⟩
  | cons c rest ih =>
    rw [List.dropWhile_cons]
    by_cases hc : p c = true
    · rw [if_pos hc]
      rcases ih with ⟨t, ht⟩
      exact ⟨c :: t, by rw [List.cons_append, ← ht]⟩
    · rw [if_neg hc]
      exact ⟨[], rfl⟩

theorem nbOk_append_right : ∀ (a b : List Char),
    nbOk (a ++ b) = true → nbOk b = true := by
  intro a
  induction a with
  | nil => intro b h; exact h
  | cons c rest ih =>
    intro b h
    rw [show (c :: rest) ++ b = c :: (rest ++ b) from rfl, nbOk,
      Bool.and_eq_true] at h
    exact ih b h.2

theorem nbOk_append_left : ∀ (a b : List Char),
    nbOk (a ++ b) = true → nbOk a = true := by
  intro a
  induction a with
  | nil => intro b _; rfl
  | cons c rest ih =>
    intro b h
    rw [show (c :: rest) ++ b = c :: (rest ++ b) from rfl, nbOk,
      Bool.and_eq_true] at h
    rw [nbOk, Bool.and_eq_true]
    refine ⟨?_, ih b h.2⟩
    by_cases hc : c = '\n'
    · rw [if_pos hc]
      rw [if_pos hc] at h
      have h1 := h.1
      simp only [Bool.not_eq_true', List.any_eq_false] at h1 ⊢
      intro x hx
      exact h1 x (mem_takeWhile_append rest b hx)
    · rw [if_neg hc]

theorem nbOk_infix {u m v : List Char} (h : nbOk (u ++ m ++ v) = true) :
    nbOk m = true :=
  nbOk_append_left m v (nbOk_append_right u (m ++ v) (by
    rw [← List.append_assoc]; exact h))

theorem jsTrim_infix : ∀ (l : List Char), ∃ u v, l = u ++ jsTrim l ++ v := by
  intro l
  rcases dropWhile_suffix isJsWs l with ⟨t, ht⟩
  rcases dropWhile_suffix isJsWs (l.dropWhile isJsWs).reverse with ⟨t2, ht2⟩
  refine ⟨t, t2.reverse, ?_⟩
  unfold jsTrim
  have ha : l.dropWhile isJsWs =
      ((l.dropWhile isJsWs).reverse.dropWhile isJsWs).reverse ++ t2.reverse := by
    have := congrArg List.reverse ht2
    rw [List.reverse_reverse, List.reverse_append] at this
    exact this
  rw [List.append_assoc, ← ha, ← ht]

theorem mem_jsTrim {x : Char} {l : List Char} (h : x ∈ jsTrim l) : x ∈ l := by
  rcases jsTrim_infix l with ⟨u, v, huv⟩
  rw [huv]
  rw [List.mem_append, List.mem_append]
  exact Or.inl (Or.inr h)

theorem nbOk_jsTrim {l : List Char} (h : nbOk l = true) : nbOk (jsTrim l) = true := by
  rcases jsTrim_infix l with ⟨u, v, huv⟩
  rw [huv] at h
  exact nbOk_infix h

theorem headNonWs_append_left : ∀ (l m : List Char), l ≠ [] →
    headNonWs (l ++ m) = headNonWs l := by
  intro l m h
  rcases l with _ | ⟨c, rest⟩
  · exact absurd rfl h
  · rfl

theorem dropWhile_head_false {p : Char → Bool} :
    ∀ (l : List Char) (c : Char) (r : List Char),
    l.dropWhile p = c :: r → p c = false := by
  intro l
  induction l with
  | nil => intro c r h; simp at h
  | cons a rest ih =>
    intro c r h
    rw [List.dropWhile_cons] at h
    by_cases ha : p a = true
    · rw [if_pos ha] at h
      exact ih c r h
    · rw [if_neg ha] at h
      rcases h with ⟨rfl, rfl⟩
      exact Bool.eq_false_iff.mpr ha

theorem dropWhile_eq_self_of_head {l : List Char} (h : headNonWs l = true) :
    l.dropWhile isJsWs = l := by
  rcases l with _ | ⟨c, rest⟩
  · rfl
  · rw [headNonWs, Bool.not_eq_true'] at h
    rw [List.dropWhile_cons, if_neg (by rw [h]; exact Bool.false_ne_true)]

theorem jsTrim_head_last {l : List Char} (h : jsTrim l ≠ []) :
    headNonWs (jsTrim l) = true ∧ lastNonWs (jsTrim l) = true := by
  have hdef : jsTrim l = ((l.dropWhile isJsWs).reverse.dropWhile isJsWs).reverse := rfl
  set a := l.dropWhile isJsWs with hadef
  set s := a.reverse.dropWhile isJsWs with hsdef
  have hsne : s ≠ [] := by
    intro hcon
    rw [hdef, hcon] at h
    simp at h
  constructor
  · rcases dropWhile_suffix isJsWs a.reverse with ⟨t2, ht2⟩
    have ha2 : a = s.reverse ++ t2.reverse := by
      have := congrArg List.reverse ht2
      rw [List.reverse_reverse, List.reverse_append] at this
      rw [this, ← hsdef]
    have hane : a ≠ [] := by
      intro hcon
      rw [hcon] at ha2
      have : s.reverse = [] := by
        rcases List.append_eq_nil.mp ha2.symm with ⟨h1, _⟩
        exact h1
      exact hsne (by simpa using this)
    have hha : headNonWs a = true := by
      rcases hae : a with _ | ⟨c, r⟩
      · exact absurd hae hane
      · have := dropWhile_head_false l c r (by rw [← hadef, hae])
        rw [headNonWs, Bool.not_eq_true', this]
    rw [hdef]
    have : headNonWs (s.reverse ++ t2.reverse) = headNonWs s.reverse := by
      apply headNonWs_append_left
      simpa using hsne
    rw [← this, ← ha2]
    exact hha
  · rw [hdef, lastNonWs, List.reverse_reverse]
    rcases hse : s with _ | ⟨c, r⟩
    · exact absurd hse hsne
    · have := dropWhile_head_false a.reverse c r (by rw [← hsdef, hse])
      rw [headNonWs, Bool.not_eq_true', this]

theorem jsTrim_ne_nil_of_headNonWs {l : List Char} (h : headNonWs l = true) :
    jsTrim l ≠ [] := by
  rcases l with _ | ⟨c, rest⟩
  · simp [headNonWs] at h
  · have hc : isJsWs c = false := by
      have h2 : (!isJsWs c) = true := h
      simpa using h2
    intro hcon
    unfold jsTrim at hcon
    rw [dropWhile_eq_self_of_head h] at hcon
    have h2 : (c :: rest).reverse.dropWhile isJsWs = [] := by
      have := congrArg List.reverse hcon
      rw [List.reverse_reverse] at this
      simpa using this
    have hall := List.dropWhile_eq_nil_iff.mp h2
    have hcc := hall c (List.mem_reverse.mpr (List.mem_cons_self c rest))
    rw [hc] at hcc
    simp at hcc

theorem jsTrim_id_of_good {l : List Char} (hh : headNonWs l = true)
    (hl : lastNonWs l = true) : jsTrim l = l := by
  unfold jsTrim
  rw [dropWhile_eq_self_of_head hh, dropWhile_eq_self_of_head hl,
    List.reverse_reverse]

theorem jsTrim_append_nl {l : List Char} (hh : headNonWs l = true)
    (hl : lastNonWs l = true) : jsTrim (l ++ ['\n']) = l := by
  have hlne : l ≠ [] := by
    intro hcon
    rw [hcon] at hh
    simp [headNonWs] at hh
  have h1 : headNonWs (l ++ ['\n']) = true := by
    rw [headNonWs_append_left l ['\n'] hlne]
    exact hh
  unfold jsTrim
  rw [dropWhile_eq_self_of_head h1]
  have h2 : (l ++ ['\n']).reverse = '\n' :: l.reverse := by
    rw [List.reverse_append]
    rfl
  rw [h2]
  rw [List.dropWhile_cons, if_pos (by decide), dropWhile_eq_self_of_head hl,
    List.reverse_reverse]

theorem takeTimestamp_spec : ∀ (cs p r : List Char),
    takeTimestamp cs = some (p, r) →
    cs = p ++ r ∧ isTsShape p = true := by
  intro cs p r h
  unfold takeTimestamp at h
  split at h
  · split at h
    · rcases Option.some.inj h with h2
      rcases Prod.mk.injEq _ _ _ _ ▸ h2 with ⟨hp, hr⟩
      subst hp
      subst hr
      constructor
      · rfl
      · rw [isTsShape]
        assumption
    · exact absurd h (by simp)
  · exact absurd h (by simp)

theorem takeTimestamp_of_shape : ∀ (p : List Char), isTsShape p = true →
    ∀ q, takeTimestamp (p ++ q) = some (p, q) := by
  intro p hp q
  unfold isTsShape at hp
  split at hp
  · rw [show ([_, _, ':', _, _, ':', _, _, ',', _, _, _] ++ q : List Char) =
      _ :: _ :: ':' :: _ :: _ :: ':' :: _ :: _ :: ',' :: _ :: _ :: _ :: q from rfl]
    rw [takeTimestamp]
    rw [if_pos hp]
  · simp at hp

theorem isTsShape_mem : ∀ (t : List Char), isTsShape t = true →
    ∀ c ∈ t, isDigitCh c = true ∨ c = ':' ∨ c = ',' := by
  intro t ht c hc
  unfold isTsShape at ht
  split at ht
  · simp only [Bool.and_eq_true] at ht
    rcases ht with ⟨⟨⟨⟨⟨⟨⟨⟨h1, h2⟩, h3⟩, h4⟩, h5⟩, h6⟩, h7⟩, h8⟩, h9⟩
    simp only [List.mem_cons, List.not_mem_nil, or_false] at hc
    rcases hc with rfl | rfl | rfl | rfl | rfl | rfl | rfl | rfl | rfl | rfl | rfl | rfl
    · exact Or.inl h1
    · exact Or.inl h2
    · exact Or.inr (Or.inl rfl)
    · exact Or.inl h3
    · exact Or.inl h4
    · exact Or.inr (Or.inl rfl)
    · exact Or.inl h5
    · exact Or.inl h6
    · exact Or.inr (Or.inr rfl)
    · exact Or.inl h7
    · exact Or.inl h8
    · exact Or.inl h9
  · simp at ht

theorem isTsShape_ne_nil {t : List Char} (ht : isTsShape t = true) : t ≠ [] := by
  unfold isTsShape at ht
  split at ht
  · simp_all
  · simp at ht

theorem isTsShape_headNonWs {t : List Char} (ht : isTsShape t = true) :
    headNonWs t = true := by
  rcases hv : t with _ | ⟨c, rest⟩
  · exact absurd hv (isTsShape_ne_nil ht)
  · have hc := isTsShape_mem t ht c (hv ▸ List.mem_cons_self c rest)
    show (!isJsWs c) = true
    rcases hc with h1 | h2 | h3
    · rw [digit_not_ws h1]
      rfl
    · subst h2
      decide
    · subst h3
      decide

theorem isTsShape_no_char {t : List Char} (ht : isTsShape t = true) {x : Char}
    (hx1 : isDigitCh x = false) (hx2 : ¬(x = ':')) (hx3 : ¬(x = ',')) : x ∉ t := by
  intro hmem
  rcases isTsShape_mem t ht x hmem with h1 | h2 | h3
  · rw [hx1] at h1
    simp at h1
  · exact hx2 h2
  · exact hx3 h3

theorem tryTimePair_shape {cs t1 t2 : List Char}
    (h : tryTimePair cs = some (t1, t2)) :
    isTsShape t1 = true ∧ isTsShape t2 = true := by
  unfold tryTimePair at h
  split at h
  · simp at h
  · split at h
    · split at h
      · rcases Option.some.inj h with h2
        rcases Prod.mk.injEq _ _ _ _ ▸ h2 with ⟨hp, hr⟩
        subst hp
        subst hr
        constructor
        · exact (takeTimestamp_spec _ _ _ (by assumption)).2
        · exact (takeTimestamp_spec _ _ _ (by assumption)).2
      · simp at h
    · simp at h

theorem matchTimePair_shape : ∀ (l t1 t2 : List Char),
    matchTimePair l = some (t1, t2) →
    isTsShape t1 = true ∧ isTsShape t2 = true := by
  intro l
  induction l with
  | nil => intro t1 t2 h; simp [matchTimePair] at h
  | cons c rest ih =>
    intro t1 t2 h
    rw [matchTimePair] at h
    split at h
    · rename_i r hr
      rcases Option.some.inj h with h2
      subst h2
      exact tryTimePair_shape hr
    · exact ih t1 t2 h

theorem matchTimePair_of_shapes {t1 t2 : List Char} (h1 : isTsShape t1 = true)
    (h2 : isTsShape t2 = true) :
    matchTimePair (t1 ++ ' ' :: '-' :: '-' :: '>' :: ' ' :: t2) = some (t1, t2) := by
  have htp : tryTimePair (t1 ++ ' ' :: '-' :: '-' :: '>' :: ' ' :: t2) =
      some (t1, t2) := by
    unfold tryTimePair
    rw [takeTimestamp_of_shape t1 h1]
    have hdw : (' ' :: '-' :: '-' :: '>' :: ' ' :: t2).dropWhile isJsWs =
        '-' :: '-' :: '>' :: ' ' :: t2 := by
      rw [List.dropWhile_cons, if_pos (by decide), List.dropWhile_cons,
        if_neg (by decide)]
    dsimp only
    rw [hdw]
    have hdw2 : (' ' :: t2).dropWhile isJsWs = t2 := by
      rw [List.dropWhile_cons, if_pos (by decide),
        dropWhile_eq_self_of_head (isTsShape_headNonWs h2)]
    show (match takeTimestamp ((' ' :: t2).dropWhile isJsWs) with
      | some (t2', _) => some (t1, t2')
      | none => none) = some (t1, t2)
    rw [hdw2]
    have hts := takeTimestamp_of_shape t2 h2 []
    rw [List.append_nil] at hts
    rw [hts]
  rcases hv : t1 with _ | ⟨c, rest⟩
  · exact absurd hv (isTsShape_ne_nil h1)
  · rw [hv] at htp
    rw [show ((c :: rest) ++ ' ' :: '-' :: '-' :: '>' :: ' ' :: t2 : List Char) =
      c :: (rest ++ ' ' :: '-' :: '-' :: '>' :: ' ' :: t2) from rfl] at htp ⊢
    rw [matchTimePair, htp]

theorem digitCh_digit : ∀ (d : Nat), isDigitCh (digitCh d) = true := by
  intro d
  rcases d with _ | _ | _ | _ | _ | _ | _ | _ | _ | d <;> rfl

theorem natCharsFuel_digits : ∀ (fuel n : Nat) (c : Char),
    c ∈ natCharsFuel fuel n → isDigitCh c = true := by
  intro fuel
  induction fuel with
  | zero => intro n c h; simp [natCharsFuel] at h
  | succ fuel ih =>
    intro n c h
    rw [natCharsFuel] at h
    split at h
    · rcases List.mem_singleton.mp h with rfl
      exact digitCh_digit n
    · rcases List.mem_append.mp h with h1 | h2
      · exact ih (n / 10) c h1
      · rcases List.mem_singleton.mp h2 with rfl
        exact digitCh_digit (n % 10)

theorem natChars_digits (n : Nat) : ∀ c ∈ natChars n, isDigitCh c = true :=
  fun c hc => natCharsFuel_digits (n + 1) n c hc

theorem natChars_ne_nil (n : Nat) : natChars n ≠ [] := by
  unfold natChars natCharsFuel
  split
  · simp
  · simp

theorem natChars_headNonWs (n : Nat) : headNonWs (natChars n) = true := by
  rcases hv : natChars n with _ | ⟨c, rest⟩
  · exact absurd hv (natChars_ne_nil n)
  · have hc := natChars_digits n c (hv ▸ List.mem_cons_self c rest)
    show (!isJsWs c) = true
    rw [digit_not_ws hc]
    rfl

theorem containsSub_infix_arrow : ∀ (a b : List Char),
    containsSub arrowChars (a ++ '-' :: '-' :: '>' :: b) = true := by
  intro a
  induction a with
  | nil =>
    intro b
    simp [containsSub, arrowChars, List.isPrefixOf]
  | cons c rest ih =>
    intro b
    rw [show ((c :: rest) ++ '-' :: '-' :: '>' :: b : List Char) =
      c :: (rest ++ '-' :: '-' :: '>' :: b) from rfl, containsSub]
    rw [ih b]
    simp

theorem containsSub_false_of_no_dash : ∀ (l : List Char),
    (∀ c ∈ l, ¬(c = '-')) → containsSub arrowChars l = false := by
  intro l
  induction l with
  | nil => intro _; rfl
  | cons c rest ih =>
    intro h
    rw [containsSub]
    have h1 : arrowChars.isPrefixOf (c :: rest) = false := by
      have hc : ¬('-' = c) := fun hh => h c (List.mem_cons_self c rest) hh.symm
      show (['-', '-', '>'] : List Char).isPrefixOf (c :: rest) = false
      rw [List.isPrefixOf]
      rw [Bool.and_eq_false_iff]
      exact Or.inl (by simpa using hc)
    rw [h1, ih (fun x hx => h x (List.mem_cons_of_mem c hx))]
    rfl

theorem joinWith_splitNl : ∀ (a : List Char), joinWith ['\n'] (splitNl a) = a := by
  intro a
  induction a with
  | nil => rfl
  | cons c rest ih =>
    rw [splitNl]
    by_cases hc : c = '\n'
    · rw [if_pos hc]
      rcases hsp : splitNl rest with _ | ⟨l, ls⟩
      · exact absurd hsp (splitNl_ne_nil rest)
      · rw [hsp] at ih
        rw [joinWith, ← ih, hc]
        rfl
    · rw [if_neg hc]
      rcases hsp : splitNl rest with _ | ⟨l, ls⟩
      · exact absurd hsp (splitNl_ne_nil rest)
      · rw [hsp] at ih
        rcases ls with _ | ⟨l2, ls2⟩
        · rw [joinWith] at ih ⊢
          rw [ih]
        · rw [joinWith_cons_cons] at ih
          rw [joinWith_cons_cons]
          simp only [List.append_assoc] at ih ⊢
          rw [List.cons_append, ih]

theorem joinWith_tail_suffix : ∀ (xs : List (List Char)),
    ∃ t, joinWith ['\n'] xs = t ++ joinWith ['\n'] (xs.drop 1) := by
  intro xs
  rcases xs with _ | ⟨x, xs2⟩
  · exact ⟨[], rfl⟩
  · rcases xs2 with _ | ⟨y, ys⟩
    · exact ⟨x, by simp [joinWith]⟩
    · exact ⟨x ++ ['\n'], by rw [joinWith_cons_cons, List.drop_one]; simp⟩

theorem splitNl_drop_suffix : ∀ (k : Nat) (a : List Char),
    ∃ t, a = t ++ joinWith ['\n'] ((splitNl a).drop k) := by
  intro k
  induction k with
  | zero =>
    intro a
    exact ⟨[], by rw [List.drop_zero, joinWith_splitNl, List.nil_append]⟩
  | succ k ih =>
    intro a
    rcases ih a with ⟨t, ht⟩
    rcases joinWith_tail_suffix ((splitNl a).drop k) with ⟨t2, ht2⟩
    rw [List.drop_drop] at ht2
    refine ⟨t ++ t2, ?_⟩
    conv_lhs => rw [ht, ht2]
    rw [List.append_assoc]

theorem nbOk_cons_join : ∀ (u v : List Char), '\n' ∉ u → headNonWs v = true →
    nbOk v = true → nbOk (u ++ '\n' :: v) = true := by
  intro u
  induction u with
  | nil =>
    intro v hnl hh hnb
    rw [List.nil_append, nbOk, Bool.and_eq_true]
    refine ⟨?_, hnb⟩
    rw [if_pos rfl]
    rcases v with _ | ⟨c, r⟩
    · simp [headNonWs] at hh
    · have hws : isJsWs c = false := by
        have h2 : (!isJsWs c) = true := hh
        simpa using h2
      rw [List.takeWhile_cons, if_neg (by rw [hws]; exact Bool.false_ne_true)]
      rfl
  | cons c u ih =>
    intro v hnl hh hnb
    rw [show ((c :: u) ++ '\n' :: v : List Char) = c :: (u ++ '\n' :: v) from rfl,
      nbOk, Bool.and_eq_true]
    have hc : ¬(c = '\n') := fun hcc => hnl (hcc ▸ List.mem_cons_self c u)
    refine ⟨by rw [if_neg hc], ?_⟩
    exact ih v (fun hm => hnl (List.mem_cons_of_mem c hm)) hh hnb

theorem lastNonWs_append : ∀ (a b : List Char), b ≠ [] →
    lastNonWs (a ++ b) = lastNonWs b := by
  intro a b hb
  unfold lastNonWs
  rw [List.reverse_append]
  exact headNonWs_append_left b.reverse a.reverse (by simpa using hb)

theorem digit_ne_nl {c : Char} (h : isDigitCh c = true) : ¬(c = '\n') := by
  intro hc
  subst hc
  simp [isDigitCh] at h

theorem digit_ne_dash {c : Char} (h : isDigitCh c = true) : ¬(c = '-') := by
  intro hc
  subst hc
  simp [isDigitCh] at h

theorem digit_ne_cr {c : Char} (h : isDigitCh c = true) : ¬(c = '\r') := by
  intro hc
  subst hc
  simp [isDigitCh] at h

theorem nl_not_mem_natChars (n : Nat) : '\n' ∉ natChars n := by
  intro hmem
  exact digit_ne_nl (natChars_digits n '\n' hmem) rfl

theorem nl_not_mem_timeline {t1 t2 : List Char} (h1 : isTsShape t1 = true)
    (h2 : isTsShape t2 = true) :
    '\n' ∉ t1 ++ ' ' :: '-' :: '-' :: '>' :: ' ' :: t2 := by
  intro hmem
  rcases List.mem_append.mp hmem with hm | hm
  · exact isTsShape_no_char h1 (by decide) (by decide) (by decide) hm
  · simp only [List.mem_cons] at hm
    rcases hm with h | h | h | h | h | h
    · exact absurd h (by decide)
    · exact absurd h (by decide)
    · exact absurd h (by decide)
    · exact absurd h (by decide)
    · exact absurd h (by decide)
    · exact isTsShape_no_char h2 (by decide) (by decide) (by decide) h

theorem replaceCrlf_id : ∀ (l : List Char), '\r' ∉ l → replaceCrlf l = l := by
  intro l
  induction l with
  | nil => intro _; rfl
  | cons c rest ih =>
    intro h
    have hc : ¬(c = '\r') := fun hcc => h (hcc ▸ List.mem_cons_self c rest)
    have hr : '\r' ∉ rest := fun hm => h (List.mem_cons_of_mem c hm)
    rw [replaceCrlf.eq_def]
    split
    · next rest1 heq =>
      exact absurd (List.cons.inj heq).1 hc
    · next c2 rest2 hno heq =>
      rcases List.cons.inj heq with ⟨rfl, rfl⟩
      rw [ih hr]
    · next heq => exact absurd heq (List.cons_ne_nil c rest)

theorem parseSRTgo_good : ∀ (parts : List (List Char)) (id : Nat),
    (∀ p ∈ parts, nbOk p = true ∧ '\r' ∉ p) →
    ∀ b ∈ parseSRTgo parts id, goodBlock b := by
  intro parts
  induction parts with
  | nil => intro id _ b hb; simp [parseSRTgo] at hb
  | cons p rest ih =>
    intro id h b hb
    have hprest : ∀ q ∈ rest, nbOk q = true ∧ '\r' ∉ q :=
      fun q hq => h q (List.mem_cons_of_mem p hq)
    have hp := h p (List.mem_cons_self p rest)
    rw [parseSRTgo] at hb
    dsimp only at hb
    split at hb
    · exact ih id hprest b hb
    · split at hb
      · exact ih id hprest b hb
      · split at hb
        · exact ih id hprest b hb
        · next arrowIndex hfind =>
          split at hb
          · exact ih id hprest b hb
          · next t1 t2 hmatch =>
            split at hb
            · exact ih id hprest b hb
            · next hne =>
              rcases List.mem_cons.mp hb with rfl | hbr
              · have hshapes := matchTimePair_shape _ t1 t2 hmatch
                rcases splitNl_drop_suffix (arrowIndex + 1) p with ⟨t, hsuf⟩
                have hnbJ : nbOk (joinWith ['\n']
                    ((splitNl p).drop (arrowIndex + 1))) = true := by
                  have := hp.1
                  rw [hsuf] at this
                  exact nbOk_append_right _ _ this
                have htrimne : jsTrim (joinWith ['\n']
                    ((splitNl p).drop (arrowIndex + 1))) ≠ [] := hne
                have hhl := jsTrim_head_last htrimne
                refine ⟨hshapes.1, hshapes.2, ?_, ?_, rfl, rfl⟩
                · show goodText (jsTrim (joinWith ['\n']
                    ((splitNl p).drop (arrowIndex + 1)))) = true
                  rw [goodText, hhl.1, hhl.2, nbOk_jsTrim hnbJ]
                  rfl
                · show '\r' ∉ jsTrim (joinWith ['\n']
                    ((splitNl p).drop (arrowIndex + 1)))
                  intro hmem
                  have h1 := mem_jsTrim hmem
                  have h2 : '\r' ∈ p := by
                    rw [hsuf]
                    exact List.mem_append_right t h1
                  exact hp.2 h2
              · exact ih (id + 1) hprest b hbr

theorem parseSRT_good (X : String) (hcr : '\r' ∉ X.data) :
    ∀ b ∈ parseSRT X, goodBlock b := by
  intro b hb
  unfold parseSRT at hb
  rw [replaceCrlf_id X.data hcr] at hb
  refine parseSRTgo_good (splitBlank X.data) 1 ?_ b hb
  intro p hp
  rcases splitBlank_parts X.data p hp with ⟨h1, h2⟩
  exact ⟨h1, fun hm => hcr (h2 '\r' hm)⟩

theorem headNonWs_ne_nil {l : List Char} (h : headNonWs l = true) : l ≠ [] := by
  intro hc
  subst hc
  simp [headNonWs] at h

theorem lastNonWs_ne_nil {l : List Char} (h : lastNonWs l = true) : l ≠ [] := by
  intro hc
  subst hc
  simp [lastNonWs, headNonWs] at h

theorem lastNonWs_cons {c : Char} {rest : List Char} (h : rest ≠ []) :
    lastNonWs (c :: rest) = lastNonWs rest := by
  unfold lastNonWs
  rw [List.reverse_cons]
  exact headNonWs_append_left rest.reverse [c] (by simpa using h)

theorem takeWhile_append_stop {p : Char → Bool} :
    ∀ (l m : List Char), l.takeWhile p ≠ l → (l ++ m).takeWhile p = l.takeWhile p := by
  intro l
  induction l with
  | nil => intro m h; exact absurd rfl h
  | cons c rest ih =>
    intro m h
    rw [List.cons_append, List.takeWhile_cons, List.takeWhile_cons]
    by_cases hc : p c = true
    · rw [if_pos hc, if_pos hc]
      rw [List.takeWhile_cons, if_pos hc] at h
      have hrest : rest.takeWhile p ≠ rest := by
        intro hcon
        exact h (by rw [hcon])
      rw [ih m hrest]
    · rw [if_neg hc, if_neg hc]

theorem takeWhile_ne_self_of_last {l : List Char} (h : lastNonWs l = true) :
    l.takeWhile isJsWs ≠ l := by
  intro heq
  have hall : ∀ a ∈ l, isJsWs a = true := by
    intro a ha
    rw [← heq] at ha
    exact List.mem_takeWhile_imp ha
  rcases hrev : l.reverse with _ | ⟨c, s⟩
  · have : l = [] := by simpa using congrArg List.reverse hrev
    subst this
    simp [lastNonWs, headNonWs] at h
  · have hc : c ∈ l := by
      rw [← List.mem_reverse, hrev]
      exact List.mem_cons_self c s
    have hws := hall c hc
    rw [lastNonWs, hrev] at h
    have h2 : (!isJsWs c) = true := h
    rw [hws] at h2
    simp at h2

theorem lastNlIdx_none_of_no_nl {l : List Char} (h : '\n' ∉ l) :
    lastNlIdx l = none := by
  unfold lastNlIdx
  have hf : l.reverse.findIdx? (fun c => c = '\n') = none := by
    rw [List.findIdx?_eq_none_iff]
    intro x hx
    have hxl : x ∈ l := List.mem_reverse.mp hx
    have : ¬(x = '\n') := fun hc => h (hc ▸ hxl)
    simpa using this
  rw [hf]

theorem sepLen_zero_of_ne {c : Char} (h : ¬(c = '\n')) (rest : List Char) :
    sepLen (c :: rest) = 0 := by
  dsimp only [sepLen]
  rw [if_neg h]

theorem sepLen_two {q : List Char} (hq : headNonWs q = true) :
    sepLen ('\n' :: '\n' :: q) = 2 := by
  dsimp only [sepLen]
  rw [if_pos rfl]
  have ht : ('\n' :: q).takeWhile isJsWs = ['\n'] := by
    rw [List.takeWhile_cons, if_pos (by decide)]
    rcases q with _ | ⟨c, r⟩
    · simp [headNonWs] at hq
    · have hws : isJsWs c = false := by
        have h2 : (!isJsWs c) = true := hq
        simpa using h2
      rw [List.takeWhile_cons, if_neg (by rw [hws]; exact Bool.false_ne_true)]
  rw [ht]
  rfl

theorem splitBlankFuel_pass : ∀ (p : List Char), nbOk p = true → lastNonWs p = true →
    ∀ (f : Nat) (ctx acc : List Char),
    splitBlankFuel (p.length + f) (p ++ ctx) acc = splitBlankFuel f ctx (p.reverse ++ acc) := by
  intro p
  induction p with
  | nil => intro _ _ f ctx acc; simp
  | cons c rest ih =>
    intro hnb hlast f ctx acc
    rw [nbOk, Bool.and_eq_true] at hnb
    rcases hnb with ⟨hcond, hrest⟩
    have hsep : sepLen (c :: (rest ++ ctx)) = 0 := by
      by_cases hc : c = '\n'
      · subst hc
        have hrne : rest ≠ [] := by
          intro hcon
          subst hcon
          simp [lastNonWs, headNonWs, isJsWs] at hlast
        have hl2 : lastNonWs rest = true := by
          rw [← lastNonWs_cons hrne]
          exact hlast
        have hstop := takeWhile_ne_self_of_last hl2
        have htw : (rest ++ ctx).takeWhile isJsWs = rest.takeWhile isJsWs :=
          takeWhile_append_stop rest ctx hstop
        have hany : ((rest.takeWhile isJsWs).any (fun x => x = '\n')) = false := by
          rw [if_pos rfl] at hcond
          simpa using hcond
        have hnonl : '\n' ∉ rest.takeWhile isJsWs := by
          intro hm
          have h2 : (rest.takeWhile isJsWs).any (fun x => x = '\n') = true := by
            rw [List.any_eq_true]
            exact ⟨'\n', hm, by decide⟩
          rw [hany] at h2
          simp at h2
        dsimp only [sepLen]
        rw [if_pos rfl, htw, lastNlIdx_none_of_no_nl hnonl]
      · exact sepLen_zero_of_ne hc (rest ++ ctx)
    rw [List.cons_append, List.length_cons,
      show rest.length + 1 + f = (rest.length + f) + 1 from by omega,
      splitBlankFuel, if_pos hsep]
    by_cases hrne : rest = []
    · subst hrne
      simp
    · have hl2 : lastNonWs rest = true := by
        rw [← lastNonWs_cons hrne]
        exact hlast
      rw [ih hrest hl2 f ctx (c :: acc)]
      rw [List.reverse_cons, List.append_assoc]
      rfl

theorem splitBlankFuel_one_nl (acc : List Char) :
    splitBlankFuel 1 ['\n'] acc = [acc.reverse ++ ['\n']] := by
  show [('\n' :: acc).reverse] = [acc.reverse ++ ['\n']]
  rw [List.reverse_cons]

theorem headNonWs_joinWith : ∀ (x : List Char) (rest : List (List Char)), x ≠ [] →
    headNonWs (joinWith ['\n'] (x :: rest)) = headNonWs x := by
  intro x rest hx
  rcases rest with _ | ⟨y, rest2⟩
  · rfl
  · rw [joinWith_cons_cons]
    rw [headNonWs_append_left (x ++ ['\n']) _ (by intro hc; simp at hc),
      headNonWs_append_left x ['\n'] hx]

theorem splitBlank_emission : ∀ (qs : List (List Char)), qs ≠ [] →
    (∀ p ∈ qs, goodText p = true) →
    splitBlank (joinWith ['\n'] (qs.map (fun q => q ++ ['\n']))) = withLastNl qs := by
  intro qs
  induction qs with
  | nil => intro h _; exact absurd rfl h
  | cons p qs2 ih =>
    intro _ hall
    have hp := hall p (List.mem_cons_self p qs2)
    rw [goodText, Bool.and_eq_true, Bool.and_eq_true] at hp
    rcases hp with ⟨⟨hph, hpl⟩, hpn⟩
    rcases qs2 with _ | ⟨y, rest⟩
    · show splitBlankFuel (p ++ ['\n']).length (p ++ ['\n']) [] = [p ++ ['\n']]
      rw [show (p ++ ['\n']).length = p.length + 1 from by simp]
      rw [splitBlankFuel_pass p hpn hpl 1 ['\n'] []]
      rw [splitBlankFuel_one_nl]
      simp
    · have hy := hall y (List.mem_cons_of_mem p (List.mem_cons_self y rest))
      have hyh : headNonWs y = true := by
        rw [goodText, Bool.and_eq_true, Bool.and_eq_true] at hy
        exact hy.1.1
      have hyne : y ≠ [] := headNonWs_ne_nil hyh
      have hE : joinWith ['\n'] ((p :: y :: rest).map (fun q => q ++ ['\n'])) =
          p ++ '\n' :: '\n' :: joinWith ['\n'] ((y :: rest).map (fun q => q ++ ['\n'])) := by
        rw [List.map_cons, List.map_cons, joinWith_cons_cons]
        simp
      rw [hE]
      have hEh : headNonWs
          (joinWith ['\n'] ((y :: rest).map (fun q => q ++ ['\n']))) = true := by
        rw [List.map_cons, headNonWs_joinWith (y ++ ['\n']) _ (by simp [hyne])]
        rw [headNonWs_append_left y ['\n'] hyne]
        exact hyh
      show splitBlankFuel (p ++ '\n' :: '\n' ::
        joinWith ['\n'] ((y :: rest).map (fun q => q ++ ['\n']))).length
        (p ++ '\n' :: '\n' ::
          joinWith ['\n'] ((y :: rest).map (fun q => q ++ ['\n']))) [] = _
      rw [show (p ++ '\n' :: '\n' ::
          joinWith ['\n'] ((y :: rest).map (fun q => q ++ ['\n']))).length =
        p.length + ((joinWith ['\n']
          ((y :: rest).map (fun q => q ++ ['\n']))).length + 2) from by simp]
      rw [splitBlankFuel_pass p hpn hpl _ _ []]
      have hsep2 := sepLen_two hEh
      have hcond : ¬(sepLen ('\n' :: '\n' ::
          joinWith ['\n'] ((y :: rest).map (fun q => q ++ ['\n']))) = 0) := by
        rw [hsep2]
        omega
      rw [show (joinWith ['\n'] ((y :: rest).map (fun q => q ++ ['\n']))).length + 2 =
        ((joinWith ['\n'] ((y :: rest).map (fun q => q ++ ['\n']))).length + 1) + 1
        from by omega]
      rw [splitBlankFuel, if_neg hcond, hsep2]
      rw [show (('\n' :: '\n' ::
        joinWith ['\n'] ((y :: rest).map (fun q => q ++ ['\n']))).drop 2) =
        joinWith ['\n'] ((y :: rest).map (fun q => q ++ ['\n'])) from rfl]
      rw [splitBlankFuel_irrel _
        ((joinWith ['\n'] ((y :: rest).map (fun q => q ++ ['\n']))).length) _ []
        (by omega) (Nat.le_refl _)]
      have hih := ih (List.cons_ne_nil y rest)
        (fun q hq => hall q (List.mem_cons_of_mem p hq))
      rw [show splitBlankFuel
        ((joinWith ['\n'] ((y :: rest).map (fun q => q ++ ['\n']))).length)
        (joinWith ['\n'] ((y :: rest).map (fun q => q ++ ['\n']))) [] =
        splitBlank (joinWith ['\n'] ((y :: rest).map (fun q => q ++ ['\n'])))
        from rfl]
      rw [hih]
      simp [withLastNl]

theorem findIdx?_second {α : Type} {f : α → Bool} {a b : α} (rest : List α)
    (ha : f a = false) (hb : f b = true) :
    (a :: b :: rest).findIdx? f = some 1 := by
  simp [List.findIdx?_cons, ha, hb]

theorem parseSRTgo_cons_part (n id : Nat) (b : SubtitleBlock) (rest : List (List Char))
    (h1 : isTsShape b.startTime.data = true) (h2 : isTsShape b.endTime.data = true)
    (h3 : goodText b.originalText.data = true) :
    parseSRTgo (srtPartOf n b :: rest) id =
      mkParsedBlock id b :: parseSRTgo rest (id + 1) := by
  rw [goodText, Bool.and_eq_true, Bool.and_eq_true] at h3
  rcases h3 with ⟨⟨hh, hl⟩, hnb⟩
  rw [srtPartOf, parseSRTgo]
  dsimp only
  have hhead : headNonWs (natChars (n + 1) ++ '\n' ::
      ((b.startTime.data ++ ' ' :: '-' :: '-' :: '>' :: ' ' :: b.endTime.data) ++
        '\n' :: b.originalText.data)) = true := by
    rw [headNonWs_append_left _ _ (natChars_ne_nil (n + 1))]
    exact natChars_headNonWs (n + 1)
  rw [if_neg (jsTrim_ne_nil_of_headNonWs hhead)]
  have hsplit : splitNl (natChars (n + 1) ++ '\n' ::
      ((b.startTime.data ++ ' ' :: '-' :: '-' :: '>' :: ' ' :: b.endTime.data) ++
        '\n' :: b.originalText.data)) =
      natChars (n + 1) ::
        (b.startTime.data ++ ' ' :: '-' :: '-' :: '>' :: ' ' :: b.endTime.data) ::
        splitNl b.originalText.data := by
    rw [splitNl_append_cons _ _ (nl_not_mem_natChars (n + 1)),
      splitNl_append_cons _ _ (nl_not_mem_timeline h1 h2)]
  rw [hsplit]
  rw [if_neg (by simp)]
  have hfind : (natChars (n + 1) ::
      (b.startTime.data ++ ' ' :: '-' :: '-' :: '>' :: ' ' :: b.endTime.data) ::
      splitNl b.originalText.data).findIdx?
      (fun l => containsSub arrowChars l) = some 1 := by
    refine findIdx?_second _ ?_ ?_
    · exact containsSub_false_of_no_dash _
        (fun c hc => digit_ne_dash (natChars_digits (n + 1) c hc))
    · have hre : b.startTime.data ++ ' ' :: '-' :: '-' :: '>' :: ' ' :: b.endTime.data =
          (b.startTime.data ++ [' ']) ++ '-' :: '-' :: '>' :: (' ' :: b.endTime.data) := by
        rw [List.append_assoc]
        rfl
      rw [hre]
      exact containsSub_infix_arrow (b.startTime.data ++ [' ']) (' ' :: b.endTime.data)
  rw [hfind]
  dsimp only
  have hgetD : (natChars (n + 1) ::
      (b.startTime.data ++ ' ' :: '-' :: '-' :: '>' :: ' ' :: b.endTime.data) ::
      splitNl b.originalText.data).getD 1 [] =
      b.startTime.data ++ ' ' :: '-' :: '-' :: '>' :: ' ' :: b.endTime.data := rfl
  rw [hgetD, matchTimePair_of_shapes h1 h2]
  dsimp only
  have hdrop : (natChars (n + 1) ::
      (b.startTime.data ++ ' ' :: '-' :: '-' :: '>' :: ' ' :: b.endTime.data) ::
      splitNl b.originalText.data).drop (1 + 1) = splitNl b.originalText.data := rfl
  rw [hdrop, joinWith_splitNl, jsTrim_id_of_good hh hl]
  rw [if_neg (headNonWs_ne_nil hh)]
  rfl

theorem parseSRTgo_last_part (n id : Nat) (b : SubtitleBlock) (rest : List (List Char))
    (h1 : isTsShape b.startTime.data = true) (h2 : isTsShape b.endTime.data = true)
    (h3 : goodText b.originalText.data = true) :
    parseSRTgo ((srtPartOf n b ++ ['\n']) :: rest) id =
      mkParsedBlock id b :: parseSRTgo rest (id + 1) := by
  rw [goodText, Bool.and_eq_true, Bool.and_eq_true] at h3
  rcases h3 with ⟨⟨hh, hl⟩, hnb⟩
  have hshape : srtPartOf n b ++ ['\n'] = natChars (n + 1) ++ '\n' ::
      ((b.startTime.data ++ ' ' :: '-' :: '-' :: '>' :: ' ' :: b.endTime.data) ++
        '\n' :: (b.originalText.data ++ ['\n'])) := by
    rw [srtPartOf]
    simp
  rw [hshape, parseSRTgo]
  dsimp only
  have hhead : headNonWs (natChars (n + 1) ++ '\n' ::
      ((b.startTime.data ++ ' ' :: '-' :: '-' :: '>' :: ' ' :: b.endTime.data) ++
        '\n' :: (b.originalText.data ++ ['\n']))) = true := by
    rw [headNonWs_append_left _ _ (natChars_ne_nil (n + 1))]
    exact natChars_headNonWs (n + 1)
  rw [if_neg (jsTrim_ne_nil_of_headNonWs hhead)]
  have hsplit : splitNl (natChars (n + 1) ++ '\n' ::
      ((b.startTime.data ++ ' ' :: '-' :: '-' :: '>' :: ' ' :: b.endTime.data) ++
        '\n' :: (b.originalText.data ++ ['\n']))) =
      natChars (n + 1) ::
        (b.startTime.data ++ ' ' :: '-' :: '-' :: '>' :: ' ' :: b.endTime.data) ::
        splitNl (b.originalText.data ++ ['\n']) := by
    rw [splitNl_append_cons _ _ (nl_not_mem_natChars (n + 1)),
      splitNl_append_cons _ _ (nl_not_mem_timeline h1 h2)]
  rw [hsplit]
  rw [if_neg (by simp)]
  have hfind : (natChars (n + 1) ::
      (b.startTime.data ++ ' ' :: '-' :: '-' :: '>' :: ' ' :: b.endTime.data) ::
      splitNl (b.originalText.data ++ ['\n'])).findIdx?
      (fun l => containsSub arrowChars l) = some 1 := by
    refine findIdx?_second _ ?_ ?_
    · exact containsSub_false_of_no_dash _
        (fun c hc => digit_ne_dash (natChars_digits (n + 1) c hc))
    · have hre : b.startTime.data ++ ' ' :: '-' :: '-' :: '>' :: ' ' :: b.endTime.data =
          (b.startTime.data ++ [' ']) ++ '-' :: '-' :: '>' :: (' ' :: b.endTime.data) := by
        rw [List.append_assoc]
        rfl
      rw [hre]
      exact containsSub_infix_arrow (b.startTime.data ++ [' ']) (' ' :: b.endTime.data)
  rw [hfind]
  dsimp only
  have hgetD : (natChars (n + 1) ::
      (b.startTime.data ++ ' ' :: '-' :: '-' :: '>' :: ' ' :: b.endTime.data) ::
      splitNl (b.originalText.data ++ ['\n'])).getD 1 [] =
      b.startTime.data ++ ' ' :: '-' :: '-' :: '>' :: ' ' :: b.endTime.data := rfl
  rw [hgetD, matchTimePair_of_shapes h1 h2]
  dsimp only
  have hdrop : (natChars (n + 1) ::
      (b.startTime.data ++ ' ' :: '-' :: '-' :: '>' :: ' ' :: b.endTime.data) ::
      splitNl (b.originalText.data ++ ['\n'])).drop (1 + 1) =
      splitNl (b.originalText.data ++ ['\n']) := rfl
  rw [hdrop, joinWith_splitNl, jsTrim_append_nl hh hl]
  rw [if_neg (headNonWs_ne_nil hh)]
  rfl

theorem parseSRTgo_withLastNl : ∀ (l : List SubtitleBlock) (n : Nat),
    (∀ b ∈ l, isTsShape b.startTime.data = true ∧ isTsShape b.endTime.data = true ∧
      goodText b.originalText.data = true) →
    parseSRTgo (withLastNl ((l.enumFrom n).map (fun ib => srtPartOf ib.1 ib.2))) (n + 1) =
      (l.enumFrom (n + 1)).map (fun ib => mkParsedBlock ib.1 ib.2) := by
  intro l
  induction l with
  | nil => intro n _; rfl
  | cons b rest ih =>
    intro n hall
    have hb := hall b (List.mem_cons_self b rest)
    rcases rest with _ | ⟨c, rest2⟩
    · show parseSRTgo [srtPartOf n b ++ ['\n']] (n + 1) = [mkParsedBlock (n + 1) b]
      rw [parseSRTgo_last_part n (n + 1) b [] hb.1 hb.2.1 hb.2.2]
      rfl
    · have hih := ih (n + 1) (fun b2 hb2 => hall b2 (List.mem_cons_of_mem b hb2))
      show parseSRTgo (srtPartOf n b ::
          withLastNl (((c :: rest2).enumFrom (n + 1)).map (fun ib => srtPartOf ib.1 ib.2)))
          (n + 1) =
        mkParsedBlock (n + 1) b ::
          ((c :: rest2).enumFrom (n + 1 + 1)).map (fun ib => mkParsedBlock ib.1 ib.2)
      rw [parseSRTgo_cons_part n (n + 1) b _ hb.1 hb.2.1 hb.2.2]
      rw [hih]

theorem enumFrom_cons_eq {α : Type} (n : Nat) (a : α) (l : List α) :
    (a :: l).enumFrom n = (n, a) :: l.enumFrom (n + 1) := rfl

theorem enumFrom_eq_nil {α : Type} {l : List α} {n : Nat}
    (h : l.enumFrom n = []) : l = [] := by
  rcases l with _ | ⟨a, r⟩
  · rfl
  · rw [enumFrom_cons_eq] at h
    exact absurd h (List.cons_ne_nil _ _)

theorem snd_mem_enumFrom {α : Type} : ∀ (l : List α) (n : Nat) (ib : Nat × α),
    ib ∈ l.enumFrom n → ib.2 ∈ l := by
  intro l
  induction l with
  | nil => intro n ib h; simp [List.enumFrom] at h
  | cons a rest ih =>
    intro n ib h
    rw [enumFrom_cons_eq] at h
    rcases List.mem_cons.mp h with rfl | h
    · exact List.mem_cons_self a rest
    · exact List.mem_cons_of_mem a (ih (n + 1) ib h)

theorem parseSRTgo_self_ids : ∀ (parts : List (List Char)) (id : Nat),
    ((parseSRTgo parts id).enumFrom id).map (fun ib => mkParsedBlock ib.1 ib.2) =
      parseSRTgo parts id := by
  intro parts
  induction parts with
  | nil => intro id; rfl
  | cons p rest ih =>
    intro id
    rw [parseSRTgo]
    dsimp only
    split
    · exact ih id
    · split
      · exact ih id
      · split
        · exact ih id
        · split
          · exact ih id
          · split
            · exact ih id
            · rw [enumFrom_cons_eq, List.map_cons, ih (id + 1)]
              rfl

theorem mem_joinWith : ∀ (xs : List (List Char)) (c : Char),
    c ∈ joinWith ['\n'] xs → c = '\n' ∨ ∃ x ∈ xs, c ∈ x := by
  intro xs
  induction xs with
  | nil => intro c h; simp [joinWith] at h
  | cons x rest ih =>
    intro c h
    rcases rest with _ | ⟨y, rest2⟩
    · exact Or.inr ⟨x, List.mem_singleton.mpr rfl, h⟩
    · rw [joinWith_cons_cons] at h
      rcases List.mem_append.mp h with h1 | h2
      · rcases List.mem_append.mp h1 with h3 | h4
        · exact Or.inr ⟨x, List.mem_cons_self x _, h3⟩
        · exact Or.inl (List.mem_singleton.mp h4)
      · rcases ih c h2 with h3 | ⟨z, hz, hcz⟩
        · exact Or.inl h3
        · exact Or.inr ⟨z, List.mem_cons_of_mem x hz, hcz⟩

theorem cr_not_mem_srtPart {i : Nat} {b : SubtitleBlock}
    (h1 : isTsShape b.startTime.data = true) (h2 : isTsShape b.endTime.data = true)
    (hcr : '\r' ∉ b.originalText.data) : '\r' ∉ srtPartOf i b := by
  intro hm
  rw [srtPartOf] at hm
  rcases List.mem_append.mp hm with h | h
  · exact digit_ne_cr (natChars_digits (i + 1) '\r' h) rfl
  · rcases List.mem_cons.mp h with h | h
    · exact absurd h (by decide)
    · rcases List.mem_append.mp h with h | h
      · rcases List.mem_append.mp h with h | h
        · exact isTsShape_no_char h1 (by decide) (by decide) (by decide) h
        · simp only [List.mem_cons] at h
          rcases h with h | h | h | h | h | h
          · exact absurd h (by decide)
          · exact absurd h (by decide)
          · exact absurd h (by decide)
          · exact absurd h (by decide)
          · exact absurd h (by decide)
          · exact isTsShape_no_char h2 (by decide) (by decide) (by decide) h
      · rcases List.mem_cons.mp h with h | h
        · exact absurd h (by decide)
        · exact hcr h

theorem goodText_srtPart {i : Nat} {b : SubtitleBlock}
    (h1 : isTsShape b.startTime.data = true) (h2 : isTsShape b.endTime.data = true)
    (h3 : goodText b.originalText.data = true) : goodText (srtPartOf i b) = true := by
  rw [goodText, Bool.and_eq_true, Bool.and_eq_true] at h3
  rcases h3 with ⟨⟨hh, hl⟩, hnb⟩
  have htxne : b.originalText.data ≠ [] := headNonWs_ne_nil hh
  have hinner : nbOk ((b.startTime.data ++
      ' ' :: '-' :: '-' :: '>' :: ' ' :: b.endTime.data) ++
      '\n' :: b.originalText.data) = true :=
    nbOk_cons_join _ _ (nl_not_mem_timeline h1 h2) hh hnb
  have hinnerHead : headNonWs ((b.startTime.data ++
      ' ' :: '-' :: '-' :: '>' :: ' ' :: b.endTime.data) ++
      '\n' :: b.originalText.data) = true := by
    rw [headNonWs_append_left _ _ (by
      intro hc
      exact absurd (List.append_eq_nil.mp hc).1 (isTsShape_ne_nil h1))]
    rw [headNonWs_append_left _ _ (isTsShape_ne_nil h1)]
    exact isTsShape_headNonWs h1
  rw [srtPartOf, goodText, Bool.and_eq_true, Bool.and_eq_true]
  refine ⟨⟨?_, ?_⟩, ?_⟩
  · rw [headNonWs_append_left _ _ (natChars_ne_nil (i + 1))]
    exact natChars_headNonWs (i + 1)
  · rw [lastNonWs_append _ _ (List.cons_ne_nil _ _),
      lastNonWs_cons (by
        intro hc
        exact absurd (List.append_eq_nil.mp hc).2 (List.cons_ne_nil _ _)),
      lastNonWs_append _ _ (List.cons_ne_nil _ _),
      lastNonWs_cons htxne]
    exact hl
  · exact nbOk_cons_join _ _ (nl_not_mem_natChars (i + 1)) hinnerHead hinner

theorem map_srtPart_emission : ∀ (l : List SubtitleBlock) (n : Nat),
    (∀ b ∈ l, b.translatedText = "") →
    (l.enumFrom n).map (fun ib =>
      natChars (ib.1 + 1) ++ '\n' ::
      (ib.2.startTime.data ++ ' ' :: '-' :: '-' :: '>' :: ' ' :: ib.2.endTime.data) ++
      '\n' :: srtBlockText ib.2 OutputFormat.ONLY_TRANSLATION ++ ['\n']) =
    ((l.enumFrom n).map (fun ib => srtPartOf ib.1 ib.2)).map (fun q => q ++ ['\n']) := by
  intro l
  induction l with
  | nil => intro n _; rfl
  | cons b rest ih =>
    intro n hall
    have hb := hall b (List.mem_cons_self b rest)
    rw [enumFrom_cons_eq, List.map_cons, List.map_cons, List.map_cons]
    rw [ih (n + 1) (fun b2 h2 => hall b2 (List.mem_cons_of_mem b h2))]
    congr 1
    dsimp only [srtBlockText]
    rw [if_pos hb, srtPartOf]
    simp

theorem parseSRT_mk (cs : List Char) :
    parseSRT (String.mk cs) = parseSRTgo (splitBlank (replaceCrlf cs)) 1 := rfl

/-- C5 (amended): for every input `X` that contains no carriage return,
serializing `parseSRT X` in translation-only mode and re-parsing reproduces
the parsed segment list exactly — ids, `startTime`, `endTime` and
`originalText` byte-for-byte (no translation is set by `parseSRT`, so
translated text falls back to the original).  The unamended claim, which
quantifies over every `X`, fails on inputs with `'\r'`
(`srt_roundtrip_counterexample`). -/
theorem srt_roundtrip (X : String) (hcr : '\r' ∉ X.data) :
    parseSRT (stringifySRT (parseSRT X) OutputFormat.ONLY_TRANSLATION) = parseSRT X := by
  by_cases hnil : parseSRT X = []
  · rw [hnil]
    rfl
  · have hgood := parseSRT_good X hcr
    have hemit : stringifySRT (parseSRT X) OutputFormat.ONLY_TRANSLATION =
        String.mk (joinWith ['\n'] ((((parseSRT X).enumFrom 0).map
          (fun ib => srtPartOf ib.1 ib.2)).map (fun q => q ++ ['\n']))) := by
      rw [stringifySRT]
      rw [show (parseSRT X).enum = (parseSRT X).enumFrom 0 from rfl]
      rw [map_srtPart_emission (parseSRT X) 0
        (fun b hb => (hgood b hb).2.2.2.2.1)]
    rw [hemit, parseSRT_mk]
    have hQgood : ∀ p ∈ ((parseSRT X).enumFrom 0).map (fun ib => srtPartOf ib.1 ib.2),
        goodText p = true := by
      intro p hp
      rcases List.mem_map.mp hp with ⟨ib, hib, rfl⟩
      have hb := hgood ib.2 (snd_mem_enumFrom _ 0 ib hib)
      exact goodText_srtPart hb.1 hb.2.1 hb.2.2.1
    have hcrE : '\r' ∉ joinWith ['\n'] ((((parseSRT X).enumFrom 0).map
        (fun ib => srtPartOf ib.1 ib.2)).map (fun q => q ++ ['\n'])) := by
      intro hm
      rcases mem_joinWith _ '\r' hm with h | ⟨x, hx, hcx⟩
      · exact absurd h (by decide)
      · rcases List.mem_map.mp hx with ⟨q, hq, rfl⟩
        rcases List.mem_map.mp hq with ⟨ib, hib, rfl⟩
        have hb := hgood ib.2 (snd_mem_enumFrom _ 0 ib hib)
        rcases List.mem_append.mp hcx with h | h
        · exact cr_not_mem_srtPart hb.1 hb.2.1 hb.2.2.2.1 h
        · exact absurd (List.mem_singleton.mp h) (by decide)
    rw [replaceCrlf_id _ hcrE]
    have hQne : ((parseSRT X).enumFrom 0).map (fun ib => srtPartOf ib.1 ib.2) ≠ [] := by
      intro hc
      apply hnil
      exact enumFrom_eq_nil (List.map_eq_nil.mp hc)
    rw [splitBlank_emission _ hQne hQgood]
    have hwl := parseSRTgo_withLastNl (parseSRT X) 0
      (fun b hb => ⟨(hgood b hb).1, (hgood b hb).2.1, (hgood b hb).2.2.1⟩)
    rw [show (0 : Nat) + 1 = 1 from rfl] at hwl
    rw [hwl]
    exact parseSRTgo_self_ids (splitBlank (replaceCrlf X.data)) 1

theorem srt_roundtrip_witness :
    '\r' ∉ "1\n00:00:01,000 --> 00:00:02,000\nHello".data ∧
    parseSRT (stringifySRT
      (parseSRT "1\n00:00:01,000 --> 00:00:02,000\nHello")
      OutputFormat.ONLY_TRANSLATION) =
      parseSRT "1\n00:00:01,000 --> 00:00:02,000\nHello" :=
  ⟨by decide, srt_roundtrip "1\n00:00:01,000 --> 00:00:02,000\nHello" (by decide)⟩
